import Mathlib

/-!
Verification of the charmcraftcache-hub CLI pipeline (checkout, base
collection, per-base build, release merge, publish).

Strings from the Python source are modelled either as Lean `String`s or,
where structural induction over characters is needed, as `List Char`.
Filesystem trees are modelled as association lists with first-match lookup.
-/

/-! ## Generic string helpers (substring search over character lists) -/

/-- Boolean prefix test on character lists (`p` starts the list `l`). -/
def beginsWith : List Char → List Char → Bool
  | [], _ => true
  | _ :: _, [] => false
  | a :: as, b :: bs => a == b && beginsWith as bs

/-- Boolean substring occurrence test: `needle` occurs somewhere in `hay`.
Models Python's `needle in hay` on `str`. -/
def hasSub : List Char → List Char → Bool
  | n, [] => n.isEmpty
  | n, c :: rest => beginsWith n (c :: rest) || hasSub n rest

/-- Python `sub in s` for strings. -/
def containsSubstr (s sub : String) : Bool := hasSub sub.toList s.toList

/-! ## Path model (component lists; `..` kept as a component, `.` dropped,
matching `pathlib.PurePath` parts) -/

/-- `Path.resolve()`'s lexical effect on components: `..` pops, `.` drops. -/
def normalizePath (p : List String) : List String :=
  p.foldl (fun acc c => if c = ".." then acc.dropLast else if c = "." then acc else acc ++ [c]) []

/-- `PurePath.is_relative_to` on already-constructed parts: purely lexical
prefix test with no normalization of `..`. -/
def lexIsRelativeTo (p root : List String) : Bool := root.isPrefixOf p

/-- `path.resolve().is_relative_to(root.resolve())` from `cli/checkout.py`
line 61: descendant test after resolving `..` components. -/
def resolvedIsDescendant (root rel : List String) : Bool :=
  (normalizePath root).isPrefixOf (normalizePath (root ++ rel))

/-! ## Data model -/

/-- `cli/charm.py` `CharmRef`. -/
structure CharmRef where
  github_repository : String
  ref : String
  relative_path_to_charmcraft_yaml : String
deriving DecidableEq, Repr

/-- `cli/release.py` `_Charm`: charm identity with the ref dropped. -/
structure MCharm where
  github_repository : String
  relative_path_to_charmcraft_yaml : String
deriving DecidableEq, Repr

/-- `_Charm.from_charm_ref`. -/
def mcharmOf (r : CharmRef) : MCharm :=
  { github_repository := r.github_repository
    relative_path_to_charmcraft_yaml := r.relative_path_to_charmcraft_yaml }

/-! ## Source checkout (`cli/checkout.py`) -/

/-- Known stderr substring for a missing repository (`checkout.py` line 48). -/
def repoNotFoundMsg : String := "ERROR: Repository not found."

/-- Known stderr substring for a missing ref (`checkout.py` line 55). -/
def refNotFoundMsg : String := "couldn't find remote ref"

inductive CheckoutResult where
  /-- checkout returned the charm directory path -/
  | ok (path : List String)
  /-- `CharmNotFound` raised for the repository -/
  | repoNotFound
  /-- `CharmNotFound` raised for the ref -/
  | refNotFound
  /-- `subprocess.CalledProcessError` re-raised (fatal, unclassified) -/
  | subprocessError (stderr : String)
  /-- the descendant assertion on line 61 failed -/
  | assertError
deriving DecidableEq, Repr

/-- `cli/checkout.py` `checkout`, remote-add step onwards (lines 36-63):
classification of the `git remote add` and `git fetch` failures, re-raise
of other failures, then the descendant assertion on the returned path. -/
def checkoutAfterSparse (root rel : List String)
    (addR fetchR coR : Option String) : CheckoutResult :=
  match addR with
  | some e =>
    if containsSubstr e repoNotFoundMsg then .repoNotFound else .subprocessError e
  | none =>
    match fetchR with
    | some e =>
      if containsSubstr e refNotFoundMsg then .refNotFound else .subprocessError e
    | none =>
      match coR with
      | some e => .subprocessError e
      | none =>
        if resolvedIsDescendant root rel then .ok (root ++ rel) else .assertError

/-- `cli/checkout.py` `checkout`.  Each git command's outcome is supplied as
`Option String`: `none` for success, `some stderr` for a
`CalledProcessError` carrying that stderr (`_run` has `check=True`).
`root` is `_REPOSITORY_DIRECTORY` as components, `rel` the components of
`relative_path_to_charmcraft_yaml`. -/
def checkoutModel (root rel : List String) (sparse : Bool)
    (initR sparseR addR fetchR coR : Option String) : CheckoutResult :=
  match initR with
  | some e => .subprocessError e
  | none =>
    match (if sparse then sparseR else none) with
    | some e => .subprocessError e
    | none => checkoutAfterSparse root rel addR fetchR coR

/-- `cli/build.py` `Charm.checkout_repository` error loop (lines 48-63):
each command result is processed in order; a failure whose stderr matches a
known substring prints a notice and the loop continues; any other failure
re-raises.  Returns the printed notices, or the re-raised stderr. -/
def buildCheckoutRepository (results : List (Option String)) : Except String (List String) :=
  match results with
  | [] => .ok []
  | none :: rest => buildCheckoutRepository rest
  | some e :: rest =>
    if containsSubstr e repoNotFoundMsg ∨ containsSubstr e refNotFoundMsg then
      match buildCheckoutRepository rest with
      | .ok notices => .ok (e :: notices)
      | .error e' => .error e'
    else .error e

/-- `cli/build.py` `Charm.directory` (lines 65-69): joins the repository
directory with the relative manifest path and asserts
`path.is_relative_to(self._repository_directory)` WITHOUT resolving;
returns `none` when the assertion fails. -/
def buildDirectory (repoDir rel : List String) : Option (List String) :=
  let p := repoDir ++ rel
  if lexIsRelativeTo p repoDir then some p else none

/-! ## Base resolver (`cli/collect_bases.py`) -/

inductive Arch where
  | x64
  | arm64
deriving DecidableEq, Repr

/-- `_Architecture` string values. -/
def archValue : Arch → String
  | .x64 => "amd64"
  | .arm64 => "arm64"

/-- `_Architecture(s)`: enum lookup by value, `none` models `ValueError`. -/
def parseArch (s : String) : Option Arch :=
  if s = "amd64" then some .x64 else if s = "arm64" then some .arm64 else none

/-- `_RUNNERS` lookup (`runs-on` value: a string or a label list). -/
def runnerOf : Arch → String ⊕ List String
  | .x64 => .inl "ubuntu-latest"
  | .arm64 => .inr ["self-hosted", "data-platform", "ubuntu", "ARM64", "4cpu16ram"]

/-- One bases-list entry's fields as read by the resolver
(`name`, `channel`, optional `architectures`). -/
structure CCEntry where
  name : String
  channel : String
  architectures : Option (List String)
deriving DecidableEq, Repr

/-- One element of `charmcraft.yaml` `bases`.  `buildOn` is the optional
`build-on` key; `flat` holds the entry's own fields, which the code reads
only when `build-on` is absent or an empty (falsy) list. -/
structure CCBaseDecl where
  buildOn : Option (List CCEntry)
  flat : CCEntry
deriving DecidableEq, Repr

/-- `collect_bases.py` `Base`. -/
structure Base where
  base_index : Nat
  runner : String ⊕ List String
  name : String
  name_in_artifact : String
deriving DecidableEq, Repr

/-- The artifact-safe base name (`collect_bases.py` line 70). -/
def nameInArtifact (channel : String) (a : Arch) : String :=
  "ubuntu@" ++ channel ++ "_ccchubbase_" ++ archValue a

/-- The canonical shorthand base name (`collect_bases.py` line 69). -/
def canonicalBaseName (channel : String) (a : Arch) : String :=
  "ubuntu@" ++ channel ++ ":" ++ archValue a

/-- `Base.from_charmcraft_yaml_base`.  `none` models an assertion failure or
`ValueError` (unsupported manifest shape). -/
def fromCharmcraftYamlBase (d : CCBaseDecl) (base_index : Nat) : Option Base :=
  let entry : Option CCEntry :=
    match d.buildOn with
    | some [] => some d.flat          -- empty list is falsy: flat fields used
    | some [e] => some e
    | some (_ :: _ :: _) => none      -- assert len(build_on) == 1
    | none => some d.flat
  match entry with
  | none => none
  | some e =>
    let arch : Option Arch :=
      match e.architectures with
      | some [] => some .x64          -- empty list is falsy: default X64
      | some [a] => parseArch a
      | some (_ :: _ :: _) => none    -- assert len(architectures) == 1
      | none => some .x64
    match arch with
    | none => none
    | some a =>
      if e.name = "ubuntu" then
        some { base_index := base_index
               runner := runnerOf a
               name := canonicalBaseName e.channel a
               name_in_artifact := nameInArtifact e.channel a }
      else none                       -- assert base["name"] == "ubuntu"

/-- `collect_bases.py` `main` lines 84-87: one `Base` per declaration, in
declaration order, indexed by `enumerate`. -/
def resolveBases (decls : List CCBaseDecl) : Option (List Base) :=
  go 0 decls
where
  go (i : Nat) : List CCBaseDecl → Option (List Base)
    | [] => some []
    | d :: ds =>
      match fromCharmcraftYamlBase d i with
      | none => none
      | some b =>
        match go (i + 1) ds with
        | none => none
        | some bs => some (b :: bs)

/-! ## Add-charm input validation (`cli/add_charm_branch.py` `main`) -/

inductive AddResult where
  /-- entry appended, new `charms.json` contents -/
  | accepted (newCharms : List CharmRef)
  /-- `IssueParsingError` caught, error message reported -/
  | rejected (message : String)
  /-- an exception other than `IssueParsingError` propagates -/
  | raisedOther
deriving DecidableEq, Repr

def authErrMsg : String := "Unable to authorize GitHub user that created this issue."
def parseErrMsg : String := "Error parsing issue body"
def orgErrMsg : String := "GitHub organization not allowed"
def repoErrMsg : String := "Repository not found."
def refErrMsg : String := "Invalid git ref."
def pathErrMsg : String := "Invalid path."
def ccchubErrMsg : String :=
  "'ccchub' string is not allowed in repository name, git ref, or relative path to charmcraft.yaml."
def dupErrMsg : String := "Git ref already exists in charms.json."

def allowedGithubOrgs : List String := ["canonical", "juju", "charmed-kubernetes"]

/-- `add_charm_branch.py` `main` validation chain.  External effects are
supplied as oracle inputs: `authorStatus` is the org-membership HTTP status,
`parsed` the regex match groups (organization, repo name, ref, path),
`repoExists`/`refValid`/`pathOk` the results of the `gh repo view`,
`git check-ref-format` and resolved-path checks, `charms` the current
`charms.json` list. -/
def addCharmBranch (authorStatus : Nat)
    (parsed : Option (String × String × String × String))
    (repoExists refValid pathOk : Bool) (charms : List CharmRef) : AddResult :=
  if authorStatus ≠ 204 then
    if authorStatus = 404 then .rejected authErrMsg else .raisedOther
  else
    match parsed with
    | none => .rejected parseErrMsg
    | some (org, repoName, ref, path) =>
      let repo := org ++ "/" ++ repoName
      if org ∉ allowedGithubOrgs then .rejected orgErrMsg
      else if ¬ repoExists then .rejected repoErrMsg
      else if ¬ refValid then .rejected refErrMsg
      else if ¬ pathOk then .rejected pathErrMsg
      -- `"ccchub" in (repo, ref, path)`: tuple membership, i.e. EQUALITY
      -- against each component, not substring search (lines 115-123)
      else if repo = "ccchub" ∨ ref = "ccchub" ∨ path = "ccchub" then .rejected ccchubErrMsg
      else
        let entry : CharmRef :=
          { github_repository := repo, ref := ref, relative_path_to_charmcraft_yaml := path }
        if entry ∈ charms then .rejected dupErrMsg
        else .accepted (charms ++ [entry])

/-! ## Wheel rename / artifact naming (`cli/build.py` `main` lines 160-175) -/

/-- The delimiter token `"charmcraftcachehub"` used in renamed wheel
artifact names. -/
def delimToken : List Char := "charmcraftcachehub".toList

/-- `parent.replace("/", "_")` (build.py line 169): flatten path separators. -/
def flattenChars (l : List Char) : List Char :=
  l.map (fun c => if c = '/' then '_' else c)

/-- Decoding counterpart: replace `_` with the path separator. -/
def unflattenChars (l : List Char) : List Char :=
  l.map (fun c => if c = '_' then '/' else c)

/-- `cli/build.py` lines 162-175: the rename of one produced wheel.
`parent` is the wheel's directory relative to the pip cache root.
`none` models the `assert "_" not in parent` failing; otherwise the
renamed artifact is
`{wheel.name}.charmcraftcachehub.{series}_{flattened parent}.charmcraftcachehub`. -/
def renameArtifact (wheelName series parent : List Char) : Option (List Char) :=
  if '_' ∈ parent then none
  else some (wheelName ++ '.' :: delimToken ++ '.' :: series ++ '_' :: flattenChars parent
    ++ '.' :: delimToken)

/-- The §6 artifact naming convention
`<original-filename>.<delimiter-token>.<flattened-subpath>.<delimiter-token>`
applied to a subpath (every path separator replaced by `_`).  The code's
rename (`renameArtifact`) instantiates it with the series-prefixed subpath
`series/parent` (see `renameArtifact_eq_encode`). -/
def encodeName (wheelName subpath : List Char) : List Char :=
  wheelName ++ '.' :: delimToken ++ '.' :: flattenChars subpath ++ '.' :: delimToken

/-- Split a character list at the first occurrence of `sep`, returning the
parts before and after that occurrence. -/
def splitFirst (sep : List Char) : List Char → Option (List Char × List Char)
  | [] => none
  | c :: rest =>
    if beginsWith sep (c :: rest) then some ([], (c :: rest).drop sep.length)
    else
      match splitFirst sep rest with
      | some (pre, post) => some (c :: pre, post)
      | none => none

/-- Modelled from the spec: the decode step of the artifact naming
convention, performed by the downstream charmcraftcache client (not part of
this repository): split the renamed filename on the delimiter token, take
the flattened-subpath element (stripping the dots that separate the
convention's elements), and replace `_` with the path separator. -/
def decodeSubpath (artifact : List Char) : Option (List Char) :=
  match splitFirst delimToken artifact with
  | none => none
  | some (_, rest) =>
    match splitFirst delimToken rest with
    | none => none
    | some (mid, _) => some (unflattenChars ((mid.drop 1).dropLast))

/-! ## Rate-limit retry policy (`cli/release.py` `GitHubRateLimitRetry`,
`cli/create_release.py` `GitHubRateLimitRetry`) -/

/-- `status_forcelist=(403, 429)`: the statuses retried (with `total=None`,
i.e. unbounded retries). -/
def retryableStatuses : List Nat := [403, 429]

/-- Whether a response status is in the retryable set. -/
def isRetriedStatus (status : Nat) : Bool := retryableStatuses.contains status

/-- urllib3's base `Retry.sleep_for_retry`, as invoked via `super()`: when
the parsed `Retry-After` value is truthy (present and nonzero) it sleeps
that long and reports `True`; otherwise both subclasses fall through to the
fixed 60-second sleep. -/
def retryAfterFallback : Option Nat → Nat
  | some s => if s = 0 then 60 else s
  | none => 60

/-- `release.py` `GitHubRateLimitRetry.sleep_for_retry` (lines 52-72):
seconds slept before the retry.  `now` is the current epoch time,
`remaining` the parsed `x-ratelimit-remaining` header (`none` = absent;
the code defaults an absent header to `-1`), `reset` the
`x-ratelimit-reset` epoch, `retryAfter` the parsed `Retry-After` seconds.
The method always sleeps and returns `True`, so the request is retried. -/
def sleepForRetrySeconds (now : Nat) (remaining : Option Int) (reset : Option Nat)
    (retryAfter : Option Nat) : Nat :=
  if remaining.getD (-1) = 0 then
    match reset with
    | some t => t - now        -- max(reset - now, 0): Nat subtraction truncates
    | none => retryAfterFallback retryAfter
  else retryAfterFallback retryAfter

/-- `create_release.py` `GitHubRateLimitRetry.sleep_for_retry` (lines
53-78): identical logic except `response.headers["x-ratelimit-remaining"]`
raises `KeyError` when the header is absent — `none` models the raised
exception (no sleep, the request fails instead of being retried). -/
def createReleaseSleepSeconds (now : Nat) (remaining : Option Int) (reset : Option Nat)
    (retryAfter : Option Nat) : Option Nat :=
  match remaining with
  | none => none
  | some rem =>
    some (if rem = 0 then
        match reset with
        | some t => t - now
        | none => retryAfterFallback retryAfter
      else retryAfterFallback retryAfter)

/-! ## Release publisher (`cli/release.py` `main` lines 151-194) -/

inductive PubEvent where
  /-- the draft, non-latest release was created (POST /releases) -/
  | createDraft
  /-- one archive was uploaded as a release asset -/
  | upload (name : String)
  /-- the release was flipped to published/latest (PATCH) -/
  | promote
deriving DecidableEq, Repr

/-- Observable release state on the API side. -/
structure ReleaseState where
  draft : Bool
  latest : Bool
  uploaded : List String
deriving DecidableEq, Repr

/-- The asset-upload loop (lines 177-186).  `uploadOk a` is the eventual
outcome of uploading archive `a` after the retry policy (rate-limited
responses are retried indefinitely, so each call either eventually succeeds
or fails fatally via `raise_for_status`).  Returns the events so far, the
release state, and whether all uploads succeeded; a fatal failure aborts
the loop (and the run) immediately. -/
def uploadLoop (uploadOk : String → Bool) :
    List String → ReleaseState → List PubEvent → List PubEvent × ReleaseState × Bool
  | [], st, tr => (tr, st, true)
  | a :: rest, st, tr =>
    if uploadOk a then
      uploadLoop uploadOk rest { st with uploaded := st.uploaded ++ [a] } (tr ++ [.upload a])
    else (tr, st, false)

/-- `release.py` `main` publish phase: create a draft, non-latest release,
upload every archive, then PATCH the release to published/latest.
`createOk`/`promoteOk` are the eventual outcomes of those calls.  Returns
the event trace and the final state of the release on the API side
(`none` when the release was never created). -/
def publishModel (archives : List String) (createOk : Bool) (uploadOk : String → Bool)
    (promoteOk : Bool) : List PubEvent × Option ReleaseState :=
  if createOk then
    match uploadLoop uploadOk archives ⟨true, false, []⟩ [PubEvent.createDraft] with
    | (tr, st, true) =>
      if promoteOk then (tr ++ [PubEvent.promote], some { st with draft := false, latest := true })
      else (tr, some st)
    | (tr, st, false) => (tr, some st)
  else ([], none)

/-! ## Release merge (`cli/release.py` `main` lines 93-143) -/

/-- Contents of a directory tree, as filename → file content with
first-match lookup. -/
abbrev FileMap := List (String × String)

def lookupFM : FileMap → String → Option String
  | [], _ => none
  | (k, v) :: rest, n => if k = n then some v else lookupFM rest n

/-- `shutil.copytree(src, dst, dirs_exist_ok=True)`: files from `src`
overwrite same-named files already present in `dst` (this is what the code
comment on lines 101-103 relies on).  With first-match lookup, prepending
the source entries models the overwrite. -/
def copyOverwrite (dst src : FileMap) : FileMap := src ++ dst

/-- The `combined_bases` directory: combined output trees keyed by
(winning charm index, base artifact name) — the directory name
`charm-{index}-base-{name}` holds exactly this pair. -/
abbrev Combined := List ((Nat × String) × FileMap)

instance : DecidableEq (Combined × List (String × FileMap)) :=
  instDecidableEqProd

def lookupC : Combined → Nat × String → Option FileMap
  | [], _ => none
  | (k, v) :: rest, key => if k = key then some v else lookupC rest key

/-- Copy a tree into `combined_bases / name` with `dirs_exist_ok=True`:
merge into the existing directory (overwriting same-named files) or create
it. -/
def copyTreeInto (c : Combined) (key : Nat × String) (src : FileMap) : Combined :=
  match c with
  | [] => [(key, src)]
  | (k, fm) :: rest =>
    if k = key then (k, copyOverwrite fm src) :: rest else (k, fm) :: copyTreeInto rest key src

/-- One downloaded per-(charm, base) output directory
`bases/charm-{index}-base-{baseName}`, holding its top-level
subdirectories (each with its file tree). -/
structure BaseDir where
  index : Nat
  baseName : String
  subdirs : List (String × FileMap)
deriving DecidableEq

/-- Lines 108-111: the per-base output must contain exactly one top-level
subdirectory (charmcraft's versioned cache-base directory, e.g.
`charmcraft-buildd-base-v7`), which is unwrapped during the copy; `none`
models the `assert len(base_subdirectories) == 1` failing. -/
def unwrapBase (b : BaseDir) : Option FileMap :=
  match b.subdirs with
  | [(_, fm)] => some fm
  | _ => none

/-- `bases.glob(f"charm-{index}-*")`: the per-base directories of one charm
index (the numeric segment is delimited by dashes, so indexes match
exactly). -/
def dirsFor (dirs : List BaseDir) (i : Nat) : List BaseDir :=
  dirs.filter (fun d => d.index == i)

/-- Lines 106-117: copy each of one index's base directories (unwrapped)
into the combined tree keyed by the winning index `m` and the base name. -/
def copyDirs (m : Nat) : List BaseDir → Combined → Option Combined
  | [], c => some c
  | b :: bs, c =>
    match unwrapBase b with
    | none => none
    | some fm => copyDirs m bs (copyTreeInto c (m, b.baseName) fm)

/-- Lines 104-117: process the member indexes of one merge group in the
given order (the code iterates `reversed(indexes)`). -/
def copyIndexList (dirs : List BaseDir) (m : Nat) : List Nat → Combined → Option Combined
  | [], c => some c
  | i :: is, c =>
    match copyDirs m (dirsFor dirs i) c with
    | none => none
    | some c' => copyIndexList dirs m is c'

/-- Python `min(indexes)` on a nonempty list. -/
def minIdx : List Nat → Nat
  | [] => 0
  | x :: xs => xs.foldl Nat.min x

/-- `charm_indexes.setdefault(key, []).append(index)` on an
insertion-ordered dict, modelled as an association list. -/
def addIndex : List (MCharm × List Nat) → MCharm → Nat → List (MCharm × List Nat)
  | [], k, i => [(k, [i])]
  | (k', is) :: rest, k, i =>
    if k' = k then (k', is ++ [i]) :: rest else (k', is) :: addIndex rest k i

def buildGroups (acc : List (MCharm × List Nat)) (i : Nat) :
    List CharmRef → List (MCharm × List Nat)
  | [] => acc
  | r :: rs => buildGroups (addIndex acc (mcharmOf r) i) (i + 1) rs

/-- Lines 95-97: group the `charms.json` indexes by `_Charm` identity
(repository, manifest path), preserving declaration order. -/
def charmIndexes (refs : List CharmRef) : List (MCharm × List Nat) :=
  buildGroups [] 0 refs

/-- Lines 100-118: merge every group, copying its member indexes from last
to first into the combined tree of `(min(indexes), base)`. -/
def mergeGroupsGo (dirs : List BaseDir) : List (MCharm × List Nat) → Combined → Option Combined
  | [], c => some c
  | (_, is) :: gs, c =>
    match copyIndexList dirs (minIdx is) is.reverse c with
    | none => none
    | some c' => mergeGroupsGo dirs gs c'

/-- Lines 93-121, the merge phase: group, merge groups, then
`bases.rmdir()` — which fails unless every per-index base directory was
processed and removed, i.e. every directory's index is a `charms.json`
index. -/
def mergeStep (refs : List CharmRef) (dirs : List BaseDir) : Option Combined :=
  match mergeGroupsGo dirs (charmIndexes refs) [] with
  | none => none
  | some c => if dirs.all (fun d => d.index < refs.length) then some c else none

/-- Python `str.replace("/", "_")` (single-character, so characterwise). -/
def replaceSlash (s : String) : String :=
  String.mk (s.data.map (fun c => if c = '/' then '_' else c))

/-- Line 132-133: the archive name derived from the winning charm's
repository, manifest path and the base artifact name. -/
def archiveNameFor (r : CharmRef) (baseName : String) : String :=
  replaceSlash (r.github_repository ++ "_ccchub1_" ++ r.relative_path_to_charmcraft_yaml
    ++ "_ccchub2_" ++ baseName)

/-- Lines 123-143, the archive phase: one archive per combined directory,
named from `charm_refs[charm_index]`; `assert not
expected_archive_path.exists()` makes a duplicate archive name fatal, and
an out-of-range charm index is an uncaught `IndexError`. -/
def archivePhase (refs : List CharmRef) :
    Combined → List (String × FileMap) → Option (List (String × FileMap))
  | [], acc => some acc
  | ((i, bName), fm) :: rest, acc =>
    match refs.get? i with
    | none => none
    | some r =>
      let name := archiveNameFor r bName
      if acc.any (fun p => p.1 == name) then none
      else archivePhase refs rest (acc ++ [(name, fm)])

/-- The merge step followed by the archive step (lines 93-143). -/
def releaseMerge (refs : List CharmRef) (dirs : List BaseDir) :
    Option (Combined × List (String × FileMap)) :=
  match mergeStep refs dirs with
  | none => none
  | some c =>
    match archivePhase refs c [] with
    | none => none
    | some archs => some (c, archs)

/-- Declaration-order indexes of the charms with identity `k`
(specification-side description of a merge group's member list). -/
def matchIdx (k : MCharm) : List CharmRef → Nat → List Nat
  | [], _ => []
  | r :: rs, i => if mcharmOf r = k then i :: matchIdx k rs (i + 1) else matchIdx k rs (i + 1)

def lookupG : List (MCharm × List Nat) → MCharm → Option (List Nat)
  | [], _ => none
  | (k, v) :: rest, key => if k = key then some v else lookupG rest key

/-- The unwrapped file trees that index `i` contributes to base `B`. -/
def selectFms (dirs : List BaseDir) (i : Nat) (B : String) : List FileMap :=
  (dirsFor dirs i).filterMap (fun d => if d.baseName == B then unwrapBase d else none)

/-- The wheel `n` as built by member index `i` for base `B`. -/
def memberFile (dirs : List BaseDir) (i : Nat) (B n : String) : Option String :=
  (selectFms dirs i B).findSome? (fun fm => lookupFM fm n)

/-- First-declared-wins lookup: the file of the earliest member index (in
the order of `is`) whose base-`B` output contains `n`. -/
def firstFile (dirs : List BaseDir) (is : List Nat) (B n : String) : Option String :=
  is.findSome? (fun i => memberFile dirs i B n)

/-- Overwriting fold of file trees into an optional destination tree
(proof device describing what a sequence of `copyTreeInto`s at one key
produces). -/
def optFold : Option FileMap → List FileMap → Option FileMap
  | cur, [] => cur
  | cur, fm :: fms => optFold (some (copyOverwrite (cur.getD []) fm)) fms

/-! ## Theorems -/

theorem beginsWith_iff (p l : List Char) : beginsWith p l = true ↔ ∃ t, l = p ++ t := by
  induction p generalizing l with
  | nil => simp [beginsWith]
  | cons a as ih =>
    cases l with
    | nil => simp [beginsWith]
    | cons b bs =>
      simp only [beginsWith, Bool.and_eq_true, beq_iff_eq]
      constructor
      · rintro ⟨rfl, h⟩
        obtain ⟨t, rfl⟩ := (ih bs).mp h
        exact ⟨t, rfl⟩
      · rintro ⟨t, h⟩
        cases h
        exact ⟨rfl, (ih _).mpr ⟨t, rfl⟩⟩

theorem hasSub_false_iff (n l : List Char) :
    hasSub n l = false ↔ ∀ i, beginsWith n (l.drop i) = false := by
  induction l with
  | nil =>
    simp only [hasSub, List.drop_nil]
    cases n <;> simp [List.isEmpty, beginsWith]
  | cons c rest ih =>
    simp only [hasSub, Bool.or_eq_false_iff]
    constructor
    · rintro ⟨h0, h⟩ i
      cases i with
      | zero => exact h0
      | succ j => exact (ih.mp h) j
    · intro h
      refine ⟨h 0, ih.mpr fun j => ?_⟩
      exact h (j + 1)

/-- `resolveBases.go`: lengths and indexes. -/
theorem resolveBases_go_spec (ds : List CCBaseDecl) :
    ∀ i bs, resolveBases.go i ds = some bs →
      bs.length = ds.length ∧ ∀ j (hj : j < bs.length), (bs.get ⟨j, hj⟩).base_index = i + j := by
  induction ds with
  | nil =>
    intro i bs h
    simp only [resolveBases.go] at h
    cases h
    exact ⟨rfl, fun j hj => absurd hj (by simp)⟩
  | cons d ds ih =>
    intro i bs h
    simp only [resolveBases.go] at h
    cases hb : fromCharmcraftYamlBase d i with
    | none => rw [hb] at h; cases h
    | some b =>
      rw [hb] at h
      cases hrest : resolveBases.go (i + 1) ds with
      | none => rw [hrest] at h; cases h
      | some bs' =>
        rw [hrest] at h
        cases h
        obtain ⟨hlen, hidx⟩ := ih (i + 1) bs' hrest
        refine ⟨by simp [hlen], fun j hj => ?_⟩
        cases j with
        | zero =>
          simp only [List.get]
          have : fromCharmcraftYamlBase d i = some b := hb
          -- base_index of a produced Base equals the passed index
          simp only [fromCharmcraftYamlBase] at this
          split at this
          · cases this
          · split at this
            · cases this
            · split at this
              · cases this
                simp_all
              · cases this
        | succ j =>
          have hj' : j < bs'.length := by simpa using hj
          have h2 := hidx j hj'
          simp only [List.get_eq_getElem] at h2
          simp only [List.get_eq_getElem, List.getElem_cons_succ]
          omega

/-- The artifact-safe name determines channel and architecture. -/
theorem nameInArtifact_inj (c₁ : String) (a₁ : Arch) (c₂ : String) (a₂ : Arch)
    (h : nameInArtifact c₁ a₁ = nameInArtifact c₂ a₂) : c₁ = c₂ ∧ a₁ = a₂ := by
  have hd : "ubuntu@".data ++ (c₁.data ++ ("_ccchubbase_".data ++ (archValue a₁).data)) =
      "ubuntu@".data ++ (c₂.data ++ ("_ccchubbase_".data ++ (archValue a₂).data)) := by
    have hx := congrArg String.data h
    simpa [nameInArtifact, String.data_append, List.append_assoc] using hx
  have h0 := List.append_cancel_left hd
  have hlen : ("_ccchubbase_".data ++ (archValue a₁).data).length =
      ("_ccchubbase_".data ++ (archValue a₂).data).length := by
    cases a₁ <;> cases a₂ <;> decide
  obtain ⟨hc, hmv⟩ := List.append_inj' h0 hlen
  have hv := List.append_cancel_left hmv
  have hva : archValue a₁ = archValue a₂ := String.ext hv
  refine ⟨String.ext hc, ?_⟩
  cases a₁ <;> cases a₂ <;> revert hva <;> decide

/-- C7: for every valid manifest, `resolveBases` returns one `Base` per
declaration in declaration order with `base_index` equal to the
declaration's position, every produced `Base` carries the artifact-safe
name of its (channel, architecture), and that naming is injective:
distinct (channel, architecture) pairs yield distinct artifact names. -/
theorem resolveBases_length_order_injective :
    (∀ decls bs, resolveBases decls = some bs →
      bs.length = decls.length ∧
      ∀ j (hj : j < bs.length), (bs.get ⟨j, hj⟩).base_index = j) ∧
    (∀ c₁ a₁ c₂ a₂, nameInArtifact c₁ a₁ = nameInArtifact c₂ a₂ → c₁ = c₂ ∧ a₁ = a₂) ∧
    (∀ d i b, fromCharmcraftYamlBase d i = some b →
      ∃ c a, b.base_index = i ∧ b.name = canonicalBaseName c a ∧
        b.name_in_artifact = nameInArtifact c a) := by
  refine ⟨?_, ?_, ?_⟩
  · intro decls bs h
    have hgo := resolveBases_go_spec decls 0 bs h
    exact ⟨hgo.1, fun j hj => by simpa using hgo.2 j hj⟩
  · exact nameInArtifact_inj
  · intro d i b h
    simp only [fromCharmcraftYamlBase] at h
    split at h
    · exact absurd h (by simp)
    · split at h
      · exact absurd h (by simp)
      · split at h
        · cases h
          exact ⟨_, _, rfl, rfl, rfl⟩
        · exact absurd h (by simp)

theorem resolveBases_length_order_injective_witness :
    resolveBases
        [⟨none, ⟨"ubuntu", "22.04", none⟩⟩,
         ⟨some [⟨"ubuntu", "20.04", some ["arm64"]⟩], ⟨"ubuntu", "0", none⟩⟩] =
      some
        [⟨0, .inl "ubuntu-latest", "ubuntu@22.04:amd64", "ubuntu@22.04_ccchubbase_amd64"⟩,
         ⟨1, .inr ["self-hosted", "data-platform", "ubuntu", "ARM64", "4cpu16ram"],
          "ubuntu@20.04:arm64", "ubuntu@20.04_ccchubbase_arm64"⟩] ∧
    ([(⟨0, .inl "ubuntu-latest", "ubuntu@22.04:amd64", "ubuntu@22.04_ccchubbase_amd64"⟩ : Base),
      ⟨1, .inr ["self-hosted", "data-platform", "ubuntu", "ARM64", "4cpu16ram"],
       "ubuntu@20.04:arm64", "ubuntu@20.04_ccchubbase_arm64"⟩]).length =
      ([(⟨none, ⟨"ubuntu", "22.04", none⟩⟩ : CCBaseDecl),
        ⟨some [⟨"ubuntu", "20.04", some ["arm64"]⟩], ⟨"ubuntu", "0", none⟩⟩]).length := by
  refine ⟨by decide, ?_⟩
  exact (resolveBases_length_order_injective.1 _ _ (by decide)).1

/-- C5: source checkout classifies a failed remote registration as
repository-not-found exactly when stderr contains the known substring,
a failed fetch as ref-not-found exactly when stderr contains its substring,
re-raises every other subprocess failure, and never returns success when
any git command failed; `build.py`'s checkout loop re-raises unclassified
failures and prints a notice for every classified failure it continues
past (no failure is passed silently). -/
theorem checkout_failure_classification :
    (∀ root rel sparse e fetchR coR,
      checkoutModel root rel sparse none none (some e) fetchR coR =
        (if containsSubstr e repoNotFoundMsg then .repoNotFound else .subprocessError e)) ∧
    (∀ root rel sparse e coR,
      checkoutModel root rel sparse none none none (some e) coR =
        (if containsSubstr e refNotFoundMsg then .refNotFound else .subprocessError e)) ∧
    (∀ root rel sparse initR sparseR addR fetchR coR p,
      checkoutModel root rel sparse initR sparseR addR fetchR coR = .ok p →
        initR = none ∧ addR = none ∧ fetchR = none ∧ coR = none) ∧
    (∀ results e, buildCheckoutRepository results = .error e →
        containsSubstr e repoNotFoundMsg = false ∧ containsSubstr e refNotFoundMsg = false) ∧
    (∀ results notices, buildCheckoutRepository results = .ok notices →
        ∀ e, some e ∈ results → e ∈ notices) := by
  refine ⟨?_, ?_, ?_, ?_, ?_⟩
  · intro root rel sparse e fetchR coR
    cases sparse <;> rfl
  · intro root rel sparse e coR
    cases sparse <;> rfl
  · intro root rel sparse initR sparseR addR fetchR coR p h
    cases initR with
    | some e => exact CheckoutResult.noConfusion h
    | none =>
      have tail : ∀ addR' fetchR' coR' : Option String,
          checkoutAfterSparse root rel addR' fetchR' coR' = .ok p →
          addR' = none ∧ fetchR' = none ∧ coR' = none := by
        intro addR' fetchR' coR' h'
        cases addR' with
        | some e =>
          have h2 : (if containsSubstr e repoNotFoundMsg = true then CheckoutResult.repoNotFound
              else CheckoutResult.subprocessError e) = .ok p := h'
          split at h2 <;> exact CheckoutResult.noConfusion h2
        | none =>
          cases fetchR' with
          | some e =>
            have h2 : (if containsSubstr e refNotFoundMsg = true then CheckoutResult.refNotFound
                else CheckoutResult.subprocessError e) = .ok p := h'
            split at h2 <;> exact CheckoutResult.noConfusion h2
          | none =>
            cases coR' with
            | some e => exact CheckoutResult.noConfusion h'
            | none => exact ⟨rfl, rfl, rfl⟩
      cases sparse with
      | true =>
        cases sparseR with
        | some e => exact CheckoutResult.noConfusion h
        | none =>
          obtain ⟨h1, h2, h3⟩ := tail addR fetchR coR h
          exact ⟨rfl, h1, h2, h3⟩
      | false =>
        obtain ⟨h1, h2, h3⟩ := tail addR fetchR coR h
        exact ⟨rfl, h1, h2, h3⟩
  · intro results
    induction results with
    | nil => intro e h; simp [buildCheckoutRepository] at h
    | cons r rest ih =>
      intro e h
      cases r with
      | none => exact ih e h
      | some s =>
        simp only [buildCheckoutRepository] at h
        split at h
        · cases hrec : buildCheckoutRepository rest with
          | ok notices => rw [hrec] at h; cases h
          | error e' =>
            rw [hrec] at h
            cases h
            exact ih e hrec
        · cases h
          rename_i hcond
          constructor
          · cases hb : containsSubstr e repoNotFoundMsg
            · rfl
            · exact absurd (Or.inl hb) hcond
          · cases hb : containsSubstr e refNotFoundMsg
            · rfl
            · exact absurd (Or.inr hb) hcond
  · intro results
    induction results with
    | nil => intro notices h e hmem; cases hmem
    | cons r rest ih =>
      intro notices h e hmem
      cases r with
      | none =>
        cases hmem with
        | tail _ ht => exact ih notices h e ht
      | some s =>
        simp only [buildCheckoutRepository] at h
        split at h
        · cases hrec : buildCheckoutRepository rest with
          | ok notices' =>
            rw [hrec] at h
            cases h
            cases hmem with
            | head => exact List.mem_cons_self _ _
            | tail _ ht => exact List.mem_cons_of_mem _ (ih notices' hrec e ht)
          | error e' => rw [hrec] at h; cases h
        · cases h

theorem checkout_failure_classification_witness :
    buildCheckoutRepository [some "fatal: couldn't find remote ref refs/heads/missing"] =
      .ok ["fatal: couldn't find remote ref refs/heads/missing"] ∧
    some "fatal: couldn't find remote ref refs/heads/missing" ∈
      [some "fatal: couldn't find remote ref refs/heads/missing"] ∧
    "fatal: couldn't find remote ref refs/heads/missing" ∈
      ["fatal: couldn't find remote ref refs/heads/missing"] := by
  refine ⟨by rfl, by decide, ?_⟩
  exact checkout_failure_classification.2.2.2.2
    [some "fatal: couldn't find remote ref refs/heads/missing"]
    ["fatal: couldn't find remote ref refs/heads/missing"] (by rfl)
    "fatal: couldn't find remote ref refs/heads/missing" (by decide)

/-- C6 (code bug): `build.py`'s `Charm.directory` checks
`is_relative_to` without resolving, so a `relative_path_to_charmcraft_yaml`
of `../escape` passes the assertion and an escaping path is returned, even
though the resolved path is not a descendant of the repository root;
`checkout.py`'s variant (which resolves first) rejects the same input. -/
theorem build_directory_escape_unchecked :
    buildDirectory ["repos", "canonical", "repo"] ["..", "escape"] =
      some ["repos", "canonical", "repo", "..", "escape"] ∧
    resolvedIsDescendant ["repos", "canonical", "repo"] ["..", "escape"] = false ∧
    checkoutModel ["charm-repo"] ["..", "escape"] true none none none none none =
      .assertError := by
  exact ⟨by decide, by decide, by decide⟩

/-- Reduction of the add-charm validation chain when the author is
authorized, the body parses, and the external repo/ref/path checks pass. -/
theorem addCharmBranch_passing (org repoName ref path : String) (charms : List CharmRef)
    (horg : org ∈ allowedGithubOrgs) :
    addCharmBranch 204 (some (org, repoName, ref, path)) true true true charms =
      (if org ++ "/" ++ repoName = "ccchub" ∨ ref = "ccchub" ∨ path = "ccchub" then
        .rejected ccchubErrMsg
      else if (⟨org ++ "/" ++ repoName, ref, path⟩ : CharmRef) ∈ charms then
        .rejected dupErrMsg
      else .accepted (charms ++ [⟨org ++ "/" ++ repoName, ref, path⟩])) := by
  simp [addCharmBranch, horg]

/-- C10: the `'ccchub' in (repository, ref, path)` guard in
`add_charm_branch.py` is tuple membership, i.e. it rejects exactly when one
of the three fields EQUALS `"ccchub"`; a field that merely contains
`"ccchub"` as a proper substring passes the guard and, when the other
checks pass, the entry is appended to `charms.json`. -/
theorem addCharm_ccchub_guard_equality :
    (∀ org repoName ref path charms,
      org ∈ allowedGithubOrgs →
      (containsSubstr repoName "ccchub" = true ∨ containsSubstr ref "ccchub" = true ∨
        containsSubstr path "ccchub" = true) →
      org ++ "/" ++ repoName ≠ "ccchub" → ref ≠ "ccchub" → path ≠ "ccchub" →
      (⟨org ++ "/" ++ repoName, ref, path⟩ : CharmRef) ∉ charms →
      addCharmBranch 204 (some (org, repoName, ref, path)) true true true charms =
        .accepted (charms ++ [⟨org ++ "/" ++ repoName, ref, path⟩])) ∧
    (∀ org repoName ref path charms,
      org ∈ allowedGithubOrgs →
      (addCharmBranch 204 (some (org, repoName, ref, path)) true true true charms =
          .rejected ccchubErrMsg ↔
        (org ++ "/" ++ repoName = "ccchub" ∨ ref = "ccchub" ∨ path = "ccchub"))) := by
  constructor
  · intro org repoName ref path charms horg _ h1 h2 h3 hmem
    rw [addCharmBranch_passing org repoName ref path charms horg]
    rw [if_neg (by tauto), if_neg hmem]
  · intro org repoName ref path charms horg
    rw [addCharmBranch_passing org repoName ref path charms horg]
    constructor
    · intro h
      by_contra hG
      rw [if_neg hG] at h
      split at h
      · rw [AddResult.rejected.injEq] at h
        exact absurd h (by decide)
      · exact AddResult.noConfusion h
    · intro hG
      rw [if_pos hG]

theorem addCharm_ccchub_guard_equality_witness :
    containsSubstr "my-ccchub-repo" "ccchub" = true ∧
    addCharmBranch 204 (some ("canonical", "my-ccchub-repo", "main", ".")) true true true [] =
      .accepted [⟨"canonical" ++ "/" ++ "my-ccchub-repo", "main", "."⟩] := by
  refine ⟨by decide, ?_⟩
  exact addCharm_ccchub_guard_equality.1 "canonical" "my-ccchub-repo" "main" "." []
    (by decide) (Or.inl (by decide)) (by decide) (by decide) (by decide) (by decide)

theorem beginsWith_self_append (p t : List Char) : beginsWith p (p ++ t) = true := by
  induction p with
  | nil => rfl
  | cons a as ih => simp [beginsWith, ih]

theorem drop_len_append (a b : List Char) : (a ++ b).drop a.length = b := by
  induction a with
  | nil => rfl
  | cons x xs ih => exact ih

theorem drop_append_of_le (i : Nat) (a b : List Char) (h : i ≤ a.length) :
    (a ++ b).drop i = a.drop i ++ b := by
  induction a generalizing i with
  | nil =>
    have h0 : i = 0 := Nat.le_zero.mp (by simpa using h)
    subst h0; rfl
  | cons x xs ih =>
    cases i with
    | zero => rfl
    | succ j => simpa using ih j (by simpa using h)

theorem prefix_of_append_eq (p : List Char) :
    ∀ a x t : List Char, a ++ x = p ++ t → p.length ≤ a.length → beginsWith p a = true := by
  induction p with
  | nil => intro a x t _ _; rfl
  | cons q ps ih =>
    intro a x t h hl
    cases a with
    | nil => simp at hl
    | cons b as =>
      simp only [List.cons_append, List.cons.injEq] at h
      obtain ⟨hb, ht⟩ := h
      simp only [beginsWith, Bool.and_eq_true, beq_iff_eq]
      exact ⟨hb.symm, ih as x t ht (by simpa using hl)⟩

theorem ch_mem_of_append (p : List Char) :
    ∀ t a Y : List Char, ∀ ch : Char,
      p ++ t = a ++ ch :: Y → a.length < p.length → ch ∈ p := by
  induction p with
  | nil => intro t a Y ch _ hl; simp at hl
  | cons q ps ih =>
    intro t a Y ch h hl
    cases a with
    | nil =>
      simp only [List.nil_append, List.cons_append, List.cons.injEq] at h
      exact h.1 ▸ List.mem_cons_self q ps
    | cons b as =>
      simp only [List.cons_append, List.cons.injEq] at h
      exact List.mem_cons_of_mem q (ih t as Y ch h.2 (by simpa using hl))

theorem hasSub_true_exists (n l : List Char) (h : hasSub n l = true) :
    ∃ i, beginsWith n (l.drop i) = true := by
  by_contra hc
  push_neg at hc
  have hfalse : hasSub n l = false := (hasSub_false_iff n l).mpr (fun i => by
    cases hb : beginsWith n (l.drop i) with
    | false => rfl
    | true => exact absurd hb (hc i))
  rw [hfalse] at h
  cases h

theorem splitFirst_cons (sep : List Char) (c : Char) (rest : List Char) :
    splitFirst sep (c :: rest) =
      if beginsWith sep (c :: rest) then some ([], (c :: rest).drop sep.length)
      else
        match splitFirst sep rest with
        | some (pre, post) => some (c :: pre, post)
        | none => none := rfl

theorem splitFirst_at (sep r : List Char) (hsep : sep ≠ []) :
    ∀ A : List Char,
      (∀ i, i < A.length → beginsWith sep ((A ++ sep ++ r).drop i) = false) →
      splitFirst sep (A ++ sep ++ r) = some (A, r) := by
  intro A
  induction A with
  | nil =>
    intro _
    have hA : ([] : List Char) ++ sep ++ r = sep ++ r := by simp
    rw [hA]
    cases sep with
    | nil => exact absurd rfl hsep
    | cons s ss =>
      have hform : (s :: ss) ++ r = s :: (ss ++ r) := rfl
      rw [hform, splitFirst_cons]
      have hb : beginsWith (s :: ss) (s :: (ss ++ r)) = true := by
        have h := beginsWith_self_append (s :: ss) r
        rw [hform] at h
        exact h
      rw [if_pos hb]
      have h2 : (s :: (ss ++ r)).drop (s :: ss).length = r := by
        have h := drop_len_append (s :: ss) r
        rw [hform] at h
        exact h
      rw [h2]
  | cons a A' ih =>
    intro hno
    have hform : (a :: A') ++ sep ++ r = a :: (A' ++ sep ++ r) := by simp
    rw [hform, splitFirst_cons]
    have h0 : beginsWith sep (a :: (A' ++ sep ++ r)) = false := by
      have h := hno 0 (by simp)
      rw [hform] at h
      simpa using h
    have h0' : ¬ beginsWith sep (a :: (A' ++ sep ++ r)) = true := by
      rw [h0]
      simp
    rw [if_neg h0']
    have hrec := ih (fun i hi => by
      have h := hno (i + 1) (by simpa using Nat.succ_lt_succ hi)
      rw [hform] at h
      simpa using h)
    rw [hrec]

theorem no_early_occurrence (tok w r : List Char) (hdot : '.' ∉ tok)
    (hw : hasSub tok w = false) :
    ∀ i, i < (w ++ ['.']).length → beginsWith tok (((w ++ ['.']) ++ tok ++ r).drop i) = false := by
  intro i hi
  have hiw : i ≤ w.length := by
    have : i < w.length + 1 := by simpa using hi
    omega
  cases hb : beginsWith tok (((w ++ ['.']) ++ tok ++ r).drop i) with
  | false => rfl
  | true =>
    exfalso
    obtain ⟨t, ht⟩ := (beginsWith_iff _ _).mp hb
    have hL : (w ++ ['.']) ++ tok ++ r = w ++ ('.' :: (tok ++ r)) := by
      simp [List.append_assoc]
    rw [hL, drop_append_of_le i w ('.' :: (tok ++ r)) hiw] at ht
    by_cases hcase : i + tok.length ≤ w.length
    · have hlen : tok.length ≤ (w.drop i).length := by
        simp only [List.length_drop]
        omega
      have hbw : beginsWith tok (w.drop i) = true :=
        prefix_of_append_eq tok (w.drop i) ('.' :: (tok ++ r)) t ht hlen
      have hfalse := (hasSub_false_iff tok w).mp hw i
      rw [hfalse] at hbw
      cases hbw
    · have hlt : (w.drop i).length < tok.length := by
        simp only [List.length_drop]
        omega
      exact hdot (ch_mem_of_append tok t (w.drop i) (tok ++ r) '.' ht.symm hlt)

theorem flatten_no_slash (l : List Char) (h : '/' ∉ l) : flattenChars l = l := by
  have hcong : ∀ c ∈ l, (if c = '/' then '_' else c) = id c := by
    intro c hc
    have hne : c ≠ '/' := fun h' => h (h' ▸ hc)
    rw [if_neg hne]
    rfl
  rw [flattenChars, List.map_congr_left hcong, List.map_id]

theorem unflatten_flatten (s : List Char) (h : '_' ∉ s) :
    unflattenChars (flattenChars s) = s := by
  rw [flattenChars, unflattenChars, List.map_map]
  have hcong : ∀ c ∈ s,
      ((fun c => if c = '_' then '/' else c) ∘ fun c => if c = '/' then '_' else c) c = id c := by
    intro c hc
    by_cases h1 : c = '/'
    · simp [Function.comp, h1]
    · have h2 : c ≠ '_' := fun hh => h (hh ▸ hc)
      simp [Function.comp, h1, h2]
  rw [List.map_congr_left hcong, List.map_id]

theorem beginsWith_flatten (tok : List Char) (htok : '_' ∉ tok) :
    ∀ m : List Char, beginsWith tok (flattenChars m) = true → beginsWith tok m = true := by
  induction tok with
  | nil => intro m _; rfl
  | cons c cs ih =>
    intro m h
    cases m with
    | nil => simp [flattenChars, beginsWith] at h
    | cons a as =>
      simp only [flattenChars, List.map_cons, beginsWith, Bool.and_eq_true, beq_iff_eq] at h ⊢
      obtain ⟨h1, h2⟩ := h
      have hc : c ≠ '_' := fun hh => htok (hh ▸ List.mem_cons_self c cs)
      refine ⟨?_, ih (fun hm => htok (List.mem_cons_of_mem _ hm)) as h2⟩
      by_cases hsl : a = '/'
      · rw [if_pos hsl] at h1
        exact absurd h1 hc
      · rw [if_neg hsl] at h1
        exact h1

theorem hasSub_flatten_false (s : List Char) (h : hasSub delimToken s = false) :
    hasSub delimToken (flattenChars s) = false := by
  cases hb : hasSub delimToken (flattenChars s) with
  | false => rfl
  | true =>
    exfalso
    obtain ⟨i, hi⟩ := hasSub_true_exists _ _ hb
    have hdrop : (flattenChars s).drop i = flattenChars (s.drop i) := by
      rw [flattenChars, flattenChars]
      exact (List.map_drop _ s i).symm
    rw [hdrop] at hi
    have hbw := beginsWith_flatten delimToken (by decide) (s.drop i) hi
    have hfalse := (hasSub_false_iff _ _).mp h i
    rw [hfalse] at hbw
    cases hbw

theorem hasSub_dot_cons (f : List Char) :
    hasSub delimToken ('.' :: f) = hasSub delimToken f := by
  have hc : delimToken = 'c' :: "harmcraftcachehub".toList := by decide
  have hb : beginsWith delimToken ('.' :: f) = false := by
    rw [hc]
    simp only [beginsWith]
    have : ('c' == '.') = false := by decide
    rw [this]
    simp
  simp only [hasSub, hb, Bool.false_or]

theorem renameArtifact_eq_encode (w series parent : List Char)
    (hs : '/' ∉ series) (hp : '_' ∉ parent) :
    renameArtifact w series parent = some (encodeName w (series ++ '/' :: parent)) := by
  simp only [renameArtifact, if_neg hp, encodeName]
  have hflat : flattenChars (series ++ '/' :: parent) = series ++ '_' :: flattenChars parent := by
    rw [flattenChars, List.map_append, List.map_cons]
    rw [show (if '/' = '/' then '_' else '/') = '_' from rfl]
    rw [show List.map (fun c => if c = '/' then '_' else c) series = flattenChars series from rfl]
    rw [flatten_no_slash series hs]
    rfl
  rw [hflat]
  simp [List.append_assoc]

/-- C8 (amended): decoding inverts the artifact naming convention for every
subpath that contains neither the delimiter token nor the replacement
character `_` (the latter is exactly what the builder's assert enforces),
provided the original filename does not contain the delimiter token (the
convention's stated guarantee). -/
theorem encode_decode_roundtrip (wheelName subpath : List Char)
    (hw : hasSub delimToken wheelName = false)
    (hs : hasSub delimToken subpath = false)
    (hu : '_' ∉ subpath) :
    decodeSubpath (encodeName wheelName subpath) = some subpath := by
  have htokne : delimToken ≠ [] := by decide
  have hdot : '.' ∉ delimToken := by decide
  have hf : hasSub delimToken (flattenChars subpath) = false := hasSub_flatten_false _ hs
  have h1 : splitFirst delimToken (encodeName wheelName subpath) =
      some (wheelName ++ ['.'], '.' :: (flattenChars subpath ++ '.' :: delimToken)) := by
    have hshape : encodeName wheelName subpath =
        (wheelName ++ ['.']) ++ delimToken ++ ('.' :: (flattenChars subpath ++ '.' :: delimToken)) := by
      simp [encodeName, List.append_assoc]
    rw [hshape]
    exact splitFirst_at delimToken _ htokne (wheelName ++ ['.'])
      (no_early_occurrence delimToken wheelName _ hdot hw)
  have hw2 : hasSub delimToken ('.' :: flattenChars subpath) = false := by
    rw [hasSub_dot_cons]
    exact hf
  have h2 : splitFirst delimToken ('.' :: (flattenChars subpath ++ '.' :: delimToken)) =
      some (('.' :: flattenChars subpath) ++ ['.'], ([] : List Char)) := by
    have hshape : '.' :: (flattenChars subpath ++ '.' :: delimToken) =
        (('.' :: flattenChars subpath) ++ ['.']) ++ delimToken ++ ([] : List Char) := by
      simp [List.append_assoc]
    rw [hshape]
    exact splitFirst_at delimToken [] htokne (('.' :: flattenChars subpath) ++ ['.'])
      (no_early_occurrence delimToken ('.' :: flattenChars subpath) [] hdot hw2)
  simp only [decodeSubpath, h1, h2]
  have hmid : ((('.' :: flattenChars subpath) ++ ['.']).drop 1).dropLast = flattenChars subpath := by
    rw [show ('.' :: flattenChars subpath) ++ ['.'] = '.' :: (flattenChars subpath ++ ['.']) from rfl]
    rw [show ('.' :: (flattenChars subpath ++ ['.'])).drop 1 = flattenChars subpath ++ ['.'] from rfl]
    exact List.dropLast_concat
  rw [hmid, unflatten_flatten subpath hu]

theorem encode_decode_roundtrip_witness :
    hasSub delimToken "jammy/pip/wheels/a6".toList = false ∧
    decodeSubpath
        (encodeName "setuptools-68.2.2-py3-none-any.whl".toList "jammy/pip/wheels/a6".toList) =
      some "jammy/pip/wheels/a6".toList := by
  refine ⟨by decide, ?_⟩
  exact encode_decode_roundtrip _ _ (by decide) (by decide) (by decide)

/-- C8 counterexample: the claim as stated (round trip for every subpath
without the delimiter token) fails on a subpath containing `_`: the decode
turns the original `_` into a path separator. -/
theorem encode_decode_underscore_counterexample :
    hasSub delimToken "a_b".toList = false ∧
    decodeSubpath (encodeName "w.whl".toList "a_b".toList) = some "a/b".toList ∧
    "a/b".toList ≠ "a_b".toList := by
  exact ⟨by decide, by decide, by decide⟩

/-- C9 counterexample: a subpath containing the delimiter token but no
underscore passes the `assert "_" not in parent` and IS renamed — the
rename step does not fail fatally on delimiter-token-containing subpaths. -/
theorem rename_accepts_delimiter_token :
    hasSub delimToken "pip/charmcraftcachehub/ab".toList = true ∧
    '_' ∉ "pip/charmcraftcachehub/ab".toList ∧
    renameArtifact "setuptools-68.2.2-py3-none-any.whl".toList "jammy".toList
        "pip/charmcraftcachehub/ab".toList ≠ none := by
  exact ⟨by decide, by decide, by decide⟩

/-- C9 (amended): the builder's rename step fails fatally exactly when the
wheel's relative subpath contains the replacement character `_` (the
`assert "_" not in parent` on build.py line 168, checked before `/` is
replaced by `_`); it does not reject subpaths containing the delimiter
token. -/
theorem rename_fatal_iff_underscore (w series parent : List Char) :
    renameArtifact w series parent = none ↔ '_' ∈ parent := by
  constructor
  · intro h
    by_contra hmem
    simp only [renameArtifact, if_neg hmem] at h
    cases h
  · intro h
    simp [renameArtifact, h]

theorem rename_fatal_iff_underscore_witness :
    '_' ∈ "has_underscore".toList ∧
    renameArtifact "w.whl".toList "jammy".toList "has_underscore".toList = none :=
  ⟨by decide, (rename_fatal_iff_underscore _ _ _).mpr (by decide)⟩

/-- C3 counterexample: in `create_release.py`, a retryable (403) response
carrying a `retry-after` header but no `x-ratelimit-remaining` header makes
`sleep_for_retry` raise `KeyError` (modelled `none`) instead of sleeping
for the retry-after duration and retrying as the claim states; `release.py`
handles the same response by sleeping 5 seconds. -/
theorem createRelease_sleep_missing_remaining_counterexample :
    isRetriedStatus 403 = true ∧
    createReleaseSleepSeconds 1000 none none (some 5) = none ∧
    sleepForRetrySeconds 1000 none none (some 5) = 5 := by
  exact ⟨by decide, rfl, rfl⟩

/-- C3 (amended): for `release.py`'s policy, the sleep is chosen with the
claimed priority: remaining = 0 with a reset header present sleeps until
the reset timestamp (overriding retry-after); otherwise a positive
retry-after value is slept; otherwise (header absent or zero) the fixed
60-second fallback is slept — and 403/429 are the retried statuses.
`create_release.py`'s copy behaves identically whenever the
`x-ratelimit-remaining` header is present, and raises when it is absent. -/
theorem rateLimitRetry_sleep_priority :
    (∀ (now : Nat) (retryAfter : Option Nat) (t : Nat),
      sleepForRetrySeconds now (some 0) (some t) retryAfter = t - now) ∧
    (∀ (now : Nat) (rem : Option Int) (reset : Option Nat) (s : Nat),
      (rem.getD (-1) = 0 → reset = none) → 0 < s →
      sleepForRetrySeconds now rem reset (some s) = s) ∧
    (∀ (now : Nat) (rem : Option Int) (reset : Option Nat) (retryAfter : Option Nat),
      (rem.getD (-1) = 0 → reset = none) → (retryAfter = none ∨ retryAfter = some 0) →
      sleepForRetrySeconds now rem reset retryAfter = 60) ∧
    (∀ st, st ∈ retryableStatuses → isRetriedStatus st = true) ∧
    (∀ (now : Nat) (r : Int) (reset : Option Nat) (retryAfter : Option Nat),
      createReleaseSleepSeconds now (some r) reset retryAfter =
        some (sleepForRetrySeconds now (some r) reset retryAfter)) ∧
    (∀ (now : Nat) (reset : Option Nat) (retryAfter : Option Nat),
      createReleaseSleepSeconds now none reset retryAfter = none) := by
  refine ⟨?_, ?_, ?_, ?_, ?_, ?_⟩
  · intro now retryAfter t
    rfl
  · intro now rem reset s hnr hs
    have hs' : s ≠ 0 := Nat.pos_iff_ne_zero.mp hs
    by_cases h0 : rem.getD (-1) = 0
    · rw [sleepForRetrySeconds.eq_def, if_pos h0, hnr h0]
      simp [retryAfterFallback, hs']
    · rw [sleepForRetrySeconds.eq_def, if_neg h0]
      simp [retryAfterFallback, hs']
  · intro now rem reset retryAfter hnr hra
    have hfb : retryAfterFallback retryAfter = 60 := by
      rcases hra with rfl | rfl
      · rfl
      · rfl
    by_cases h0 : rem.getD (-1) = 0
    · rw [sleepForRetrySeconds.eq_def, if_pos h0, hnr h0, hfb]
    · rw [sleepForRetrySeconds.eq_def, if_neg h0, hfb]
  · intro st hst
    simp only [retryableStatuses, List.mem_cons, List.mem_singleton] at hst
    rcases hst with rfl | rfl | h
    · decide
    · decide
    · cases h
  · intro now r reset retryAfter
    rfl
  · intro now reset retryAfter
    rfl

theorem rateLimitRetry_sleep_priority_witness :
    ((some 2 : Option Nat) = none ∨ (some 2 : Option Nat) = some 0) = False ∧
    (0 : Nat) < 5 ∧
    sleepForRetrySeconds 1000 (some 3) none (some 5) = 5 := by
  refine ⟨by simp, by decide, ?_⟩
  exact rateLimitRetry_sleep_priority.2.1 1000 (some 3) none 5 (by intro h; cases h) (by decide)

theorem uploadLoop_true (uploadOk : String → Bool) :
    ∀ (l : List String) (st : ReleaseState) (tr tr' : List PubEvent) (st' : ReleaseState),
      uploadLoop uploadOk l st tr = (tr', st', true) →
      (∀ a ∈ l, uploadOk a = true) ∧ tr' = tr ++ l.map PubEvent.upload ∧
        st'.draft = st.draft ∧ st'.latest = st.latest ∧
        st'.uploaded = st.uploaded ++ l := by
  intro l
  induction l with
  | nil =>
    intro st tr tr' st' h
    simp only [uploadLoop, Prod.mk.injEq] at h
    obtain ⟨h1, h2, _⟩ := h
    subst h1; subst h2
    exact ⟨by simp, by simp, rfl, rfl, by simp⟩
  | cons a rest ih =>
    intro st tr tr' st' h
    simp only [uploadLoop] at h
    by_cases hok : uploadOk a = true
    · rw [if_pos hok] at h
      obtain ⟨hall, htr, hd, hl, hu⟩ := ih _ _ _ _ h
      refine ⟨?_, ?_, hd, hl, ?_⟩
      · intro b hb
        rcases List.mem_cons.mp hb with rfl | hb'
        · exact hok
        · exact hall b hb'
      · rw [htr]; simp
      · rw [hu]; simp
    · rw [if_neg hok] at h
      simp only [Prod.mk.injEq] at h
      exact absurd h.2.2 (by simp)

theorem uploadLoop_false (uploadOk : String → Bool) :
    ∀ (l : List String) (st : ReleaseState) (tr tr' : List PubEvent) (st' : ReleaseState),
      uploadLoop uploadOk l st tr = (tr', st', false) →
      st'.draft = st.draft ∧ st'.latest = st.latest ∧
        (∀ e ∈ tr', e ∈ tr ∨ ∃ a, e = PubEvent.upload a) := by
  intro l
  induction l with
  | nil =>
    intro st tr tr' st' h
    simp only [uploadLoop, Prod.mk.injEq] at h
    exact absurd h.2.2 (by simp)
  | cons a rest ih =>
    intro st tr tr' st' h
    simp only [uploadLoop] at h
    by_cases hok : uploadOk a = true
    · rw [if_pos hok] at h
      obtain ⟨hd, hl, hev⟩ := ih _ _ _ _ h
      refine ⟨hd, hl, ?_⟩
      intro e he
      rcases hev e he with hin | hup
      · rcases List.mem_append.mp hin with h1 | h2
        · exact Or.inl h1
        · exact Or.inr ⟨a, by simpa using h2⟩
      · exact Or.inr hup
    · rw [if_neg hok] at h
      simp only [Prod.mk.injEq] at h
      obtain ⟨h1, h2, _⟩ := h
      subst h1; subst h2
      exact ⟨rfl, rfl, fun e he => Or.inl he⟩

/-- C4: the publisher creates the release as a draft, non-latest release;
if the final state is marked latest then every archive uploaded
successfully (and all archives are among the uploaded assets); the promote
event, when it occurs, is the last event and is preceded by an upload of
every archive; and a fatal (non-rate-limit) upload failure aborts the run
before the promote step, leaving the release in draft, non-latest state
with no promote event — so in no execution is the release marked latest
before all uploads succeeded. -/
theorem publisher_promotes_only_after_uploads
    (archives : List String) (createOk : Bool) (uploadOk : String → Bool) (promoteOk : Bool) :
    (∀ st, (publishModel archives createOk uploadOk promoteOk).2 = some st →
      st.latest = true →
      (∀ a ∈ archives, uploadOk a = true) ∧ st.draft = false ∧ archives ⊆ st.uploaded) ∧
    (PubEvent.promote ∈ (publishModel archives createOk uploadOk promoteOk).1 →
      ∃ pre, (publishModel archives createOk uploadOk promoteOk).1 = pre ++ [PubEvent.promote] ∧
        PubEvent.promote ∉ pre ∧ ∀ a ∈ archives, PubEvent.upload a ∈ pre) ∧
    (createOk = true → (∃ a ∈ archives, uploadOk a = false) →
      ∃ st, (publishModel archives createOk uploadOk promoteOk).2 = some st ∧
        st.draft = true ∧ st.latest = false ∧
        PubEvent.promote ∉ (publishModel archives createOk uploadOk promoteOk).1) := by
  by_cases hc : createOk = true
  · rcases hres : uploadLoop uploadOk archives ⟨true, false, []⟩ [PubEvent.createDraft]
      with ⟨tr', st', flag⟩
    cases flag with
    | true =>
      have hpub : publishModel archives createOk uploadOk promoteOk =
          (if promoteOk then
            (tr' ++ [PubEvent.promote], some { st' with draft := false, latest := true })
          else (tr', some st')) := by
        rw [publishModel, if_pos hc, hres]
      obtain ⟨hall, htr, hd, hl, hu⟩ := uploadLoop_true uploadOk _ _ _ _ _ hres
      by_cases hp : promoteOk = true
      · rw [if_pos hp] at hpub
        refine ⟨?_, ?_, ?_⟩
        · intro st hst _
          rw [hpub] at hst
          simp only [Option.some.injEq] at hst
          subst hst
          refine ⟨hall, rfl, ?_⟩
          intro a ha
          simp only [hu]
          exact List.mem_append.mpr (Or.inr ha)
        · intro _
          refine ⟨tr', ?_, ?_, ?_⟩
          · rw [hpub]
          · rw [htr]
            intro hmem
            rcases List.mem_append.mp hmem with h1 | h2
            · simp at h1
            · rcases List.mem_map.mp h2 with ⟨a, _, hup⟩
              cases hup
          · intro a ha
            rw [htr]
            exact List.mem_append.mpr (Or.inr (List.mem_map.mpr ⟨a, ha, rfl⟩))
        · intro _ hex
          obtain ⟨a, ha, hfail⟩ := hex
          rw [hall a ha] at hfail
          cases hfail
      · rw [if_neg hp] at hpub
        refine ⟨?_, ?_, ?_⟩
        · intro st hst hlatest
          rw [hpub] at hst
          simp only [Option.some.injEq] at hst
          subst hst
          rw [hl] at hlatest
          cases hlatest
        · intro hmem
          rw [hpub] at hmem
          simp only at hmem
          rw [htr] at hmem
          rcases List.mem_append.mp hmem with h1 | h2
          · simp at h1
          · rcases List.mem_map.mp h2 with ⟨a, _, hup⟩
            cases hup
        · intro _ hex
          obtain ⟨a, ha, hfail⟩ := hex
          rw [hall a ha] at hfail
          cases hfail
    | false =>
      have hpub : publishModel archives createOk uploadOk promoteOk = (tr', some st') := by
        rw [publishModel, if_pos hc, hres]
      obtain ⟨hd, hl, hev⟩ := uploadLoop_false uploadOk _ _ _ _ _ hres
      have hnoprom : PubEvent.promote ∉ tr' := by
        intro hmem
        rcases hev _ hmem with h1 | ⟨a, hup⟩
        · simp at h1
        · cases hup
      refine ⟨?_, ?_, ?_⟩
      · intro st hst hlatest
        rw [hpub] at hst
        simp only [Option.some.injEq] at hst
        subst hst
        rw [hl] at hlatest
        cases hlatest
      · intro hmem
        rw [hpub] at hmem
        exact absurd hmem hnoprom
      · intro _ _
        refine ⟨st', ?_, hd, hl, ?_⟩
        · rw [hpub]
        · rw [hpub]
          exact hnoprom
  · have hc' : createOk = false := by
      cases createOk
      · rfl
      · exact absurd rfl hc
    subst hc'
    have hpub : publishModel archives false uploadOk promoteOk = ([], none) := by
      rw [publishModel, if_neg (by simp)]
    refine ⟨?_, ?_, ?_⟩
    · intro st hst _
      rw [hpub] at hst
      cases hst
    · intro hmem
      rw [hpub] at hmem
      cases hmem
    · intro hcreate _
      cases hcreate

theorem publisher_promotes_only_after_uploads_witness :
    (publishModel ["x.tar.gz"] true (fun _ => true) true).2 =
      some ⟨false, true, ["x.tar.gz"]⟩ ∧
    (∀ a ∈ ["x.tar.gz"], (fun _ : String => true) a = true) := by
  have happ := (publisher_promotes_only_after_uploads ["x.tar.gz"] true (fun _ => true) true).1
    ⟨false, true, ["x.tar.gz"]⟩ (by rfl) (by rfl)
  exact ⟨by rfl, happ.1⟩

theorem lookupG_addIndex (k0 : MCharm) (i : Nat) :
    ∀ (acc : List (MCharm × List Nat)) (k : MCharm),
      lookupG (addIndex acc k0 i) k =
        if k = k0 then some ((lookupG acc k0).getD [] ++ [i]) else lookupG acc k := by
  intro acc
  induction acc with
  | nil =>
    intro k
    by_cases hk : k = k0
    · subst hk
      simp [addIndex, lookupG]
    · simp only [addIndex, lookupG]
      rw [if_neg (fun h : k0 = k => hk h.symm), if_neg hk]
  | cons p rest ih =>
    obtain ⟨k', is⟩ := p
    intro k
    by_cases hk' : k' = k0
    · subst hk'
      simp only [addIndex, if_pos rfl]
      by_cases hk : k = k'
      · subst hk
        simp [lookupG]
      · simp only [lookupG, if_neg (fun h : k' = k => hk h.symm), if_neg hk]
    · simp only [addIndex, if_neg hk']
      by_cases hk : k = k'
      · subst hk
        simp only [lookupG, if_pos rfl]
        rw [if_neg hk']
        simp [lookupG]
      · simp only [lookupG, if_neg (fun h : k' = k => hk h.symm)]
        rw [ih k]
        by_cases hkk0 : k = k0
        · subst hkk0
          rw [if_pos rfl, if_pos rfl]
          rw [if_neg (fun h : k' = k => hk h.symm)]
        · rw [if_neg hkk0, if_neg hkk0]

theorem lookupG_buildGroups (k : MCharm) :
    ∀ (rs : List CharmRef) (acc : List (MCharm × List Nat)) (i : Nat),
      lookupG (buildGroups acc i rs) k =
        match lookupG acc k, matchIdx k rs i with
        | none, [] => none
        | none, l => some l
        | some v, l => some (v ++ l) := by
  intro rs
  induction rs with
  | nil =>
    intro acc i
    simp only [buildGroups, matchIdx]
    cases lookupG acc k with
    | none => rfl
    | some v => simp
  | cons r rs' ih =>
    intro acc i
    simp only [buildGroups, matchIdx]
    rw [ih]
    rw [lookupG_addIndex]
    by_cases hk : k = mcharmOf r
    · rw [if_pos hk, if_pos (hk.symm)]
      cases hacc : lookupG acc k with
      | none =>
        have : lookupG acc (mcharmOf r) = none := hk ▸ hacc
        rw [this]
        simp only [Option.getD_none, List.nil_append]
        cases matchIdx k rs' (i + 1) with
        | nil => rfl
        | cons x xs => rfl
      | some v =>
        have : lookupG acc (mcharmOf r) = some v := hk ▸ hacc
        rw [this]
        simp only [Option.getD_some]
        cases matchIdx k rs' (i + 1) with
        | nil => simp
        | cons x xs => simp
    · rw [if_neg hk, if_neg (fun h : mcharmOf r = k => hk h.symm)]

theorem keys_addIndex (k0 : MCharm) (i : Nat) :
    ∀ acc : List (MCharm × List Nat),
      (addIndex acc k0 i).map Prod.fst =
        if k0 ∈ acc.map Prod.fst then acc.map Prod.fst else acc.map Prod.fst ++ [k0] := by
  intro acc
  induction acc with
  | nil => simp [addIndex]
  | cons p rest ih =>
    obtain ⟨k', is⟩ := p
    by_cases hk : k' = k0
    · subst hk
      simp [addIndex]
    · simp only [addIndex, if_neg hk, List.map_cons, ih]
      have hmem : k0 ∈ (k' :: rest.map Prod.fst) ↔ k0 ∈ rest.map Prod.fst := by
        constructor
        · intro h
          rcases List.mem_cons.mp h with h1 | h2
          · exact absurd h1.symm hk
          · exact h2
        · exact fun h => List.mem_cons_of_mem _ h
      by_cases hin : k0 ∈ rest.map Prod.fst
      · rw [if_pos hin, if_pos (hmem.mpr hin)]
      · rw [if_neg hin, if_neg (fun hc => hin (hmem.mp hc))]
        simp

theorem nodup_keys_addIndex (k0 : MCharm) (i : Nat) (acc : List (MCharm × List Nat))
    (h : (acc.map Prod.fst).Nodup) : ((addIndex acc k0 i).map Prod.fst).Nodup := by
  rw [keys_addIndex]
  by_cases hin : k0 ∈ acc.map Prod.fst
  · rw [if_pos hin]; exact h
  · rw [if_neg hin]
    rw [List.nodup_append]
    exact ⟨h, List.nodup_singleton k0, by
      intro a ha hb
      simp only [List.mem_singleton] at hb
      subst hb
      exact hin ha⟩

theorem nodup_keys_buildGroups :
    ∀ (rs : List CharmRef) (acc : List (MCharm × List Nat)) (i : Nat),
      (acc.map Prod.fst).Nodup → ((buildGroups acc i rs).map Prod.fst).Nodup := by
  intro rs
  induction rs with
  | nil => intro acc i h; exact h
  | cons r rs' ih =>
    intro acc i h
    exact ih _ _ (nodup_keys_addIndex _ _ _ h)

theorem mem_lookupG :
    ∀ (l : List (MCharm × List Nat)) (k : MCharm) (v : List Nat),
      (l.map Prod.fst).Nodup → (k, v) ∈ l → lookupG l k = some v := by
  intro l
  induction l with
  | nil => intro k v _ hmem; cases hmem
  | cons p rest ih =>
    obtain ⟨k', v'⟩ := p
    intro k v hnd hmem
    simp only [List.map_cons, List.nodup_cons] at hnd
    rcases List.mem_cons.mp hmem with heq | htail
    · injection heq with h1 h2
      subst h1; subst h2
      simp [lookupG]
    · have hk : k' ≠ k := by
        intro h
        subst h
        exact hnd.1 (List.mem_map.mpr ⟨(k', v), htail, rfl⟩)
      simp only [lookupG, if_neg hk]
      exact ih k v hnd.2 htail

theorem mem_matchIdx (k : MCharm) :
    ∀ (refs : List CharmRef) (s j : Nat), j ∈ matchIdx k refs s →
      s ≤ j ∧ (refs.get? (j - s)).map mcharmOf = some k := by
  intro refs
  induction refs with
  | nil => intro s j h; cases h
  | cons r rs ih =>
    intro s j h
    simp only [matchIdx] at h
    by_cases hk : mcharmOf r = k
    · rw [if_pos hk] at h
      rcases List.mem_cons.mp h with rfl | htail
      · refine ⟨Nat.le_refl j, ?_⟩
        simp [hk]
      · obtain ⟨hle, hget⟩ := ih (s + 1) j htail
        refine ⟨Nat.le_of_succ_le hle, ?_⟩
        have hj : j - s = (j - (s + 1)) + 1 := by omega
        rw [hj]
        simpa using hget
    · rw [if_neg hk] at h
      obtain ⟨hle, hget⟩ := ih (s + 1) j h
      refine ⟨Nat.le_of_succ_le hle, ?_⟩
      have hj : j - s = (j - (s + 1)) + 1 := by omega
      rw [hj]
      simpa using hget

theorem matchIdx_sorted (k : MCharm) :
    ∀ (refs : List CharmRef) (s : Nat),
      List.Pairwise (· < ·) (matchIdx k refs s) ∧ ∀ j ∈ matchIdx k refs s, s ≤ j := by
  intro refs
  induction refs with
  | nil => intro s; exact ⟨List.Pairwise.nil, fun j h => absurd h (List.not_mem_nil j)⟩
  | cons r rs ih =>
    intro s
    obtain ⟨hpw, hge⟩ := ih (s + 1)
    simp only [matchIdx]
    by_cases hk : mcharmOf r = k
    · rw [if_pos hk]
      refine ⟨List.Pairwise.cons (fun j hj => ?_) hpw, fun j hj => ?_⟩
      · exact Nat.lt_of_succ_le (hge j hj)
      · rcases List.mem_cons.mp hj with rfl | htail
        · exact Nat.le_refl j
        · exact Nat.le_of_succ_le (hge j htail)
    · rw [if_neg hk]
      exact ⟨hpw, fun j hj => Nat.le_of_succ_le (hge j hj)⟩

theorem foldl_min_mem :
    ∀ (xs : List Nat) (a : Nat), xs.foldl Nat.min a = a ∨ xs.foldl Nat.min a ∈ xs := by
  intro xs
  induction xs with
  | nil => intro a; exact Or.inl rfl
  | cons y ys ih =>
    intro a
    simp only [List.foldl_cons]
    rcases ih (Nat.min a y) with h | h
    · rcases Nat.le_total a y with hle | hle
      · left
        rw [h]
        unfold Nat.min
        simp [hle]
      · right
        have hmin : Nat.min a y = y := by
          unfold Nat.min
          by_cases hay : a ≤ y
          · simp [hay]
            exact Nat.le_antisymm hay hle
          · simp [hay]
            exact hle
        rw [h, hmin]
        exact List.mem_cons_self _ _
    · exact Or.inr (List.mem_cons_of_mem _ h)

theorem foldl_min_le :
    ∀ (xs : List Nat) (a x : Nat), (x = a ∨ x ∈ xs) → xs.foldl Nat.min a ≤ x := by
  intro xs
  induction xs with
  | nil =>
    intro a x hx
    rcases hx with rfl | h
    · exact Nat.le_refl x
    · cases h
  | cons y ys ih =>
    intro a x hx
    simp only [List.foldl_cons]
    rcases hx with rfl | hx'
    · exact Nat.le_trans (ih (Nat.min x y) (Nat.min x y) (Or.inl rfl)) (Nat.min_le_left x y)
    · rcases List.mem_cons.mp hx' with rfl | h2
      · exact Nat.le_trans (ih (Nat.min a x) (Nat.min a x) (Or.inl rfl)) (Nat.min_le_right a x)
      · exact ih _ _ (Or.inr h2)

theorem minIdx_mem : ∀ (l : List Nat), l ≠ [] → minIdx l ∈ l := by
  intro l hl
  cases l with
  | nil => exact absurd rfl hl
  | cons x xs =>
    simp only [minIdx]
    rcases foldl_min_mem xs x with h | h
    · rw [h]
      exact List.mem_cons_self _ _
    · exact List.mem_cons_of_mem _ h

theorem minIdx_le : ∀ (l : List Nat) (x : Nat), x ∈ l → minIdx l ≤ x := by
  intro l x hx
  cases l with
  | nil => cases hx
  | cons a xs =>
    simp only [minIdx]
    rcases List.mem_cons.mp hx with rfl | h
    · exact foldl_min_le xs x x (Or.inl rfl)
    · exact foldl_min_le xs a x (Or.inr h)

theorem group_mem_spec (refs : List CharmRef) (k : MCharm) (is : List Nat)
    (hG : (k, is) ∈ charmIndexes refs) : is = matchIdx k refs 0 ∧ is ≠ [] := by
  have hnd : ((charmIndexes refs).map Prod.fst).Nodup :=
    nodup_keys_buildGroups refs [] 0 (by simp)
  have hlk := mem_lookupG _ _ _ hnd hG
  rw [show charmIndexes refs = buildGroups [] 0 refs from rfl] at hlk
  rw [lookupG_buildGroups k refs [] 0] at hlk
  cases hm : matchIdx k refs 0 with
  | nil =>
    rw [hm] at hlk
    simp [lookupG] at hlk
  | cons x xs =>
    rw [hm] at hlk
    simp only [lookupG] at hlk
    injection hlk with h1
    refine ⟨h1.symm, ?_⟩
    rw [← h1]
    simp

theorem group_key_of_min (refs : List CharmRef) (k : MCharm) (is : List Nat)
    (hG : (k, is) ∈ charmIndexes refs) :
    (refs.get? (minIdx is)).map mcharmOf = some k := by
  obtain ⟨hchar, hne⟩ := group_mem_spec refs k is hG
  rw [hchar]
  have hne' : matchIdx k refs 0 ≠ [] := by rw [← hchar]; exact hne
  have hmem := minIdx_mem _ hne'
  have hmi := mem_matchIdx k refs 0 _ hmem
  simpa using hmi.2

theorem lookupC_copyTreeInto :
    ∀ (c : Combined) (key : Nat × String) (fm : FileMap) (key' : Nat × String),
      lookupC (copyTreeInto c key fm) key' =
        if key' = key then some (copyOverwrite ((lookupC c key).getD []) fm)
        else lookupC c key' := by
  intro c
  induction c with
  | nil =>
    intro key fm key'
    by_cases hk : key' = key
    · subst hk
      simp [copyTreeInto, lookupC, copyOverwrite]
    · simp only [copyTreeInto, lookupC]
      rw [if_neg (fun h : key = key' => hk h.symm), if_neg hk]
  | cons p rest ih =>
    obtain ⟨k0, fm0⟩ := p
    intro key fm key'
    simp only [copyTreeInto]
    by_cases h0 : k0 = key
    · rw [if_pos h0]
      subst h0
      by_cases hk : key' = k0
      · subst hk
        simp [lookupC]
      · simp only [lookupC, if_neg (fun h : k0 = key' => hk h.symm), if_neg hk]
    · rw [if_neg h0]
      simp only [lookupC]
      by_cases hk : k0 = key'
      · subst hk
        rw [if_pos rfl, if_pos rfl]
        rw [if_neg (fun h : k0 = key => h0 h)]
      · rw [if_neg hk, if_neg hk]
        rw [ih key fm key']
        by_cases hkk : key' = key
        · rw [if_pos hkk, if_pos hkk]
          rw [if_neg h0]
        · rw [if_neg hkk, if_neg hkk]

theorem keysC_copyTreeInto :
    ∀ (c : Combined) (key : Nat × String) (fm : FileMap),
      (copyTreeInto c key fm).map Prod.fst =
        if key ∈ c.map Prod.fst then c.map Prod.fst else c.map Prod.fst ++ [key] := by
  intro c
  induction c with
  | nil => intro key fm; simp [copyTreeInto]
  | cons p rest ih =>
    obtain ⟨k0, fm0⟩ := p
    intro key fm
    simp only [copyTreeInto]
    by_cases h0 : k0 = key
    · subst h0
      rw [if_pos rfl]
      simp [List.mem_cons]
    · rw [if_neg h0]
      simp only [List.map_cons, ih]
      have hmem : (key ∈ k0 :: rest.map Prod.fst) ↔ key ∈ rest.map Prod.fst := by
        constructor
        · intro h
          rcases List.mem_cons.mp h with h1 | h2
          · exact absurd h1.symm h0
          · exact h2
        · exact fun h => List.mem_cons_of_mem _ h
      by_cases hin : key ∈ rest.map Prod.fst
      · rw [if_pos hin, if_pos (hmem.mpr hin)]
      · rw [if_neg hin, if_neg (fun hc => hin (hmem.mp hc))]
        simp

theorem nodup_keysC_copyTreeInto (c : Combined) (key : Nat × String) (fm : FileMap)
    (h : (c.map Prod.fst).Nodup) : ((copyTreeInto c key fm).map Prod.fst).Nodup := by
  rw [keysC_copyTreeInto]
  by_cases hin : key ∈ c.map Prod.fst
  · rw [if_pos hin]; exact h
  · rw [if_neg hin]
    rw [List.nodup_append]
    exact ⟨h, List.nodup_singleton key, by
      intro a ha hb
      simp only [List.mem_singleton] at hb
      subst hb
      exact hin ha⟩

theorem lookupFM_append :
    ∀ (m₁ m₂ : FileMap) (n : String),
      lookupFM (m₁ ++ m₂) n = (lookupFM m₁ n).or (lookupFM m₂ n) := by
  intro m₁
  induction m₁ with
  | nil => intro m₂ n; simp [lookupFM, Option.none_or]
  | cons p rest ih =>
    obtain ⟨k, v⟩ := p
    intro m₂ n
    simp only [List.cons_append, lookupFM]
    by_cases hk : k = n
    · rw [if_pos hk, if_pos hk]
      rfl
    · rw [if_neg hk, if_neg hk]
      exact ih m₂ n

theorem copyDirs_lookup (m : Nat) (B : String) :
    ∀ (bs : List BaseDir) (c c' : Combined), copyDirs m bs c = some c' →
      lookupC c' (m, B) =
        optFold (lookupC c (m, B))
          (bs.filterMap (fun d => if d.baseName == B then unwrapBase d else none)) := by
  intro bs
  induction bs with
  | nil =>
    intro c c' h
    simp only [copyDirs, Option.some.injEq] at h
    subst h
    rfl
  | cons b bs' ih =>
    intro c c' h
    simp only [copyDirs] at h
    cases hu : unwrapBase b with
    | none => rw [hu] at h; cases h
    | some fm =>
      rw [hu] at h
      rw [ih _ _ h]
      simp only [List.filterMap_cons]
      by_cases hB : b.baseName = B
      · have hBeq : (b.baseName == B) = true := beq_iff_eq.mpr hB
        rw [if_pos hBeq, hu]
        have hkey : ((m, B) : Nat × String) = (m, b.baseName) := by rw [hB]
        rw [lookupC_copyTreeInto c (m, b.baseName) fm (m, B), if_pos hkey]
        rw [hB]
        rfl
      · have hBeq : ¬ (b.baseName == B) = true := by
          rw [beq_iff_eq]
          exact hB
        rw [if_neg hBeq]
        rw [lookupC_copyTreeInto c (m, b.baseName) fm (m, B),
          if_neg (fun hc : ((m, B) : Nat × String) = (m, b.baseName) => hB (by
            injection hc with _ h2
            exact h2.symm))]

theorem copyDirs_lookup_ne (m : Nat) :
    ∀ (bs : List BaseDir) (c c' : Combined), copyDirs m bs c = some c' →
      ∀ key : Nat × String, key.1 ≠ m → lookupC c' key = lookupC c key := by
  intro bs
  induction bs with
  | nil =>
    intro c c' h key _
    simp only [copyDirs, Option.some.injEq] at h
    subst h
    rfl
  | cons b bs' ih =>
    intro c c' h key hkey
    simp only [copyDirs] at h
    cases hu : unwrapBase b with
    | none => rw [hu] at h; cases h
    | some fm =>
      rw [hu] at h
      rw [ih _ _ h key hkey]
      rw [lookupC_copyTreeInto c (m, b.baseName) fm key,
        if_neg (fun hc : key = (m, b.baseName) => hkey (by rw [hc]))]

theorem copyDirs_nodup (m : Nat) :
    ∀ (bs : List BaseDir) (c c' : Combined), copyDirs m bs c = some c' →
      (c.map Prod.fst).Nodup → (c'.map Prod.fst).Nodup := by
  intro bs
  induction bs with
  | nil =>
    intro c c' h hnd
    simp only [copyDirs, Option.some.injEq] at h
    subst h
    exact hnd
  | cons b bs' ih =>
    intro c c' h hnd
    simp only [copyDirs] at h
    cases hu : unwrapBase b with
    | none => rw [hu] at h; cases h
    | some fm =>
      rw [hu] at h
      exact ih _ _ h (nodup_keysC_copyTreeInto _ _ _ hnd)

theorem optFold_append :
    ∀ (l₁ l₂ : List FileMap) (cur : Option FileMap),
      optFold cur (l₁ ++ l₂) = optFold (optFold cur l₁) l₂ := by
  intro l₁
  induction l₁ with
  | nil => intro l₂ cur; rfl
  | cons fm fms ih => intro l₂ cur; exact ih l₂ _

theorem copyIndexList_lookup (dirs : List BaseDir) (m : Nat) (B : String) :
    ∀ (js : List Nat) (c c' : Combined), copyIndexList dirs m js c = some c' →
      lookupC c' (m, B) =
        optFold (lookupC c (m, B)) ((js.map (fun j => selectFms dirs j B)).flatten) := by
  intro js
  induction js with
  | nil =>
    intro c c' h
    simp only [copyIndexList, Option.some.injEq] at h
    subst h
    rfl
  | cons i js' ih =>
    intro c c' h
    simp only [copyIndexList] at h
    cases hcd : copyDirs m (dirsFor dirs i) c with
    | none => rw [hcd] at h; cases h
    | some c₁ =>
      rw [hcd] at h
      rw [ih _ _ h]
      have h1 := copyDirs_lookup m B (dirsFor dirs i) c c₁ hcd
      rw [h1]
      simp only [List.map_cons, List.flatten_cons]
      rw [optFold_append]
      rfl

theorem copyIndexList_lookup_ne (dirs : List BaseDir) (m : Nat) :
    ∀ (js : List Nat) (c c' : Combined), copyIndexList dirs m js c = some c' →
      ∀ key : Nat × String, key.1 ≠ m → lookupC c' key = lookupC c key := by
  intro js
  induction js with
  | nil =>
    intro c c' h key _
    simp only [copyIndexList, Option.some.injEq] at h
    subst h
    rfl
  | cons i js' ih =>
    intro c c' h key hkey
    simp only [copyIndexList] at h
    cases hcd : copyDirs m (dirsFor dirs i) c with
    | none => rw [hcd] at h; cases h
    | some c₁ =>
      rw [hcd] at h
      rw [ih _ _ h key hkey]
      exact copyDirs_lookup_ne m _ _ _ hcd key hkey

theorem copyIndexList_nodup (dirs : List BaseDir) (m : Nat) :
    ∀ (js : List Nat) (c c' : Combined), copyIndexList dirs m js c = some c' →
      (c.map Prod.fst).Nodup → (c'.map Prod.fst).Nodup := by
  intro js
  induction js with
  | nil =>
    intro c c' h hnd
    simp only [copyIndexList, Option.some.injEq] at h
    subst h
    exact hnd
  | cons i js' ih =>
    intro c c' h hnd
    simp only [copyIndexList] at h
    cases hcd : copyDirs m (dirsFor dirs i) c with
    | none => rw [hcd] at h; cases h
    | some c₁ =>
      rw [hcd] at h
      exact ih _ _ h (copyDirs_nodup m _ _ _ hcd hnd)

theorem mergeGroupsGo_append (dirs : List BaseDir) :
    ∀ (xs ys : List (MCharm × List Nat)) (c c' : Combined),
      mergeGroupsGo dirs (xs ++ ys) c = some c' →
      ∃ cm, mergeGroupsGo dirs xs c = some cm ∧ mergeGroupsGo dirs ys cm = some c' := by
  intro xs
  induction xs with
  | nil => intro ys c c' h; exact ⟨c, rfl, h⟩
  | cons g xs' ih =>
    obtain ⟨k0, is0⟩ := g
    intro ys c c' h
    simp only [List.cons_append, mergeGroupsGo] at h ⊢
    cases hcl : copyIndexList dirs (minIdx is0) is0.reverse c with
    | none => rw [hcl] at h; cases h
    | some c₁ =>
      rw [hcl] at h
      exact ih ys c₁ c' h

theorem mergeGroupsGo_ne (dirs : List BaseDir) :
    ∀ (gs : List (MCharm × List Nat)) (c c' : Combined),
      mergeGroupsGo dirs gs c = some c' →
      ∀ key : Nat × String, (∀ g ∈ gs, minIdx g.2 ≠ key.1) →
        lookupC c' key = lookupC c key := by
  intro gs
  induction gs with
  | nil =>
    intro c c' h key _
    simp only [mergeGroupsGo, Option.some.injEq] at h
    subst h
    rfl
  | cons g gs' ih =>
    obtain ⟨k0, is0⟩ := g
    intro c c' h key hmin
    simp only [mergeGroupsGo] at h
    cases hcl : copyIndexList dirs (minIdx is0) is0.reverse c with
    | none => rw [hcl] at h; cases h
    | some c₁ =>
      rw [hcl] at h
      rw [ih _ _ h key (fun g hg => hmin g (List.mem_cons_of_mem _ hg))]
      exact copyIndexList_lookup_ne dirs (minIdx is0) _ _ _ hcl key
        (fun hc => hmin (k0, is0) (List.mem_cons_self _ _) hc.symm)

theorem mergeGroupsGo_nodup (dirs : List BaseDir) :
    ∀ (gs : List (MCharm × List Nat)) (c c' : Combined),
      mergeGroupsGo dirs gs c = some c' →
      (c.map Prod.fst).Nodup → (c'.map Prod.fst).Nodup := by
  intro gs
  induction gs with
  | nil =>
    intro c c' h hnd
    simp only [mergeGroupsGo, Option.some.injEq] at h
    subst h
    exact hnd
  | cons g gs' ih =>
    obtain ⟨k0, is0⟩ := g
    intro c c' h hnd
    simp only [mergeGroupsGo] at h
    cases hcl : copyIndexList dirs (minIdx is0) is0.reverse c with
    | none => rw [hcl] at h; cases h
    | some c₁ =>
      rw [hcl] at h
      exact ih _ _ h (copyIndexList_nodup dirs _ _ _ _ hcl hnd)

theorem findSome_append (l₁ l₂ : List FileMap) (f : FileMap → Option String) :
    (l₁ ++ l₂).findSome? f = ((l₁.findSome? f).or (l₂.findSome? f)) := by
  induction l₁ with
  | nil => simp [Option.none_or]
  | cons a as ih =>
    simp only [List.cons_append, List.findSome?_cons]
    cases f a <;> simp [ih]

theorem lookupFM_optFold (n : String) :
    ∀ (L : List FileMap) (cur : Option FileMap),
      ((optFold cur L).bind (fun fm => lookupFM fm n)) =
        (L.reverse.findSome? (fun fm => lookupFM fm n)).or
          (cur.bind (fun fm => lookupFM fm n)) := by
  intro L
  induction L with
  | nil => intro cur; simp [optFold, Option.none_or]
  | cons fm fms ih =>
    intro cur
    simp only [optFold]
    rw [ih]
    simp only [List.reverse_cons]
    rw [findSome_append]
    have hsingle : ([fm] : List FileMap).findSome? (fun fm => lookupFM fm n) = lookupFM fm n := by
      cases hl : lookupFM fm n <;> simp [List.findSome?_cons, hl]
    have hbind : (some (copyOverwrite (cur.getD []) fm)).bind (fun fm => lookupFM fm n) =
        (lookupFM fm n).or (cur.bind (fun fm => lookupFM fm n)) := by
      show lookupFM (fm ++ cur.getD []) n = _
      rw [lookupFM_append]
      cases cur with
      | none => rfl
      | some d => rfl
    rw [hbind, hsingle]
    cases hA : fms.reverse.findSome? (fun fm => lookupFM fm n) with
    | none => rfl
    | some v => rfl

theorem findSome_congr (F G : Nat → Option String) :
    ∀ is : List Nat, (∀ i ∈ is, F i = G i) → is.findSome? F = is.findSome? G := by
  intro is
  induction is with
  | nil => intro _; rfl
  | cons i is' ih =>
    intro h
    simp only [List.findSome?_cons]
    rw [h i (List.mem_cons_self _ _), ih (fun j hj => h j (List.mem_cons_of_mem _ hj))]

theorem joinrev_findSome (g : Nat → List FileMap) (f : FileMap → Option String) :
    ∀ is : List Nat,
      (((is.reverse.map g).flatten).reverse).findSome? f =
        is.findSome? (fun i => ((g i).reverse).findSome? f) := by
  intro is
  induction is with
  | nil => rfl
  | cons i is' ih =>
    simp only [List.reverse_cons, List.map_append, List.map_cons, List.map_nil,
      List.flatten_append, List.reverse_append, List.findSome?_cons]
    rw [findSome_append]
    rw [ih]
    have hsimp : (([g i] : List (List FileMap)).flatten).reverse.findSome? f =
        (g i).reverse.findSome? f := by
      simp
    rw [hsimp]
    cases hv : (g i).reverse.findSome? f with
    | none => rfl
    | some v => rfl

theorem reverse_of_len_le_one (l : List FileMap) (h : l.length ≤ 1) : l.reverse = l := by
  cases l with
  | nil => rfl
  | cons a rest =>
    cases rest with
    | nil => rfl
    | cons b r => simp at h

theorem selectFms_nil (i : Nat) (B : String) :
    ∀ dirs : List BaseDir,
      ((i, B) ∉ dirs.map (fun d => (d.index, d.baseName))) → selectFms dirs i B = [] := by
  intro dirs
  induction dirs with
  | nil => intro _; rfl
  | cons d rest ih =>
    intro hnot
    simp only [List.map_cons, List.mem_cons] at hnot
    push_neg at hnot
    obtain ⟨hne, hrest⟩ := hnot
    have ihr := ih hrest
    simp only [selectFms, dirsFor, List.filter_cons] at ihr ⊢
    by_cases hi : d.index = i
    · have hbeq : (d.index == i) = true := beq_iff_eq.mpr hi
      rw [if_pos hbeq]
      simp only [List.filterMap_cons]
      by_cases hB : d.baseName = B
      · exact absurd (by rw [hi, hB]) hne.symm
      · have hBeq : ¬ (d.baseName == B) = true := by
          rw [beq_iff_eq]
          exact hB
        rw [if_neg hBeq]
        exact ihr
    · have hbeq : ¬ (d.index == i) = true := by
        rw [beq_iff_eq]
        exact hi
      rw [if_neg hbeq]
      exact ihr

theorem selectFms_le_one :
    ∀ (dirs : List BaseDir), ((dirs.map (fun d => (d.index, d.baseName))).Nodup) →
      ∀ (i : Nat) (B : String), (selectFms dirs i B).length ≤ 1 := by
  intro dirs
  induction dirs with
  | nil => intro _ i B; simp [selectFms, dirsFor]
  | cons d rest ih =>
    intro hnd i B
    simp only [List.map_cons, List.nodup_cons] at hnd
    obtain ⟨hnotin, hnd'⟩ := hnd
    simp only [selectFms, dirsFor, List.filter_cons]
    by_cases hi : d.index = i
    · have hbeq : (d.index == i) = true := beq_iff_eq.mpr hi
      rw [if_pos hbeq]
      simp only [List.filterMap_cons]
      by_cases hB : d.baseName = B
      · have hrest : selectFms rest i B = [] := by
          apply selectFms_nil
          rw [← hi, ← hB]
          exact hnotin
        have hrest' :
            (List.filter (fun d => d.index == i) rest).filterMap
              (fun d => if (d.baseName == B) = true then unwrapBase d else none) = [] := hrest
        rw [if_pos (beq_iff_eq.mpr hB)]
        cases hu : unwrapBase d with
        | none => rw [hrest']; simp
        | some fm => rw [hrest']; simp
      · rw [if_neg (by rw [beq_iff_eq]; exact hB)]
        exact ih hnd' i B
    · rw [if_neg (by rw [beq_iff_eq]; exact hi)]
      exact ih hnd' i B

theorem lookupC_mem :
    ∀ (c : Combined) (key : Nat × String) (v : FileMap),
      lookupC c key = some v → (key, v) ∈ c := by
  intro c
  induction c with
  | nil => intro key v h; cases h
  | cons p rest ih =>
    obtain ⟨k0, fm0⟩ := p
    intro key v h
    simp only [lookupC] at h
    by_cases hk : k0 = key
    · rw [if_pos hk] at h
      injection h with h1
      subst hk; subst h1
      exact List.mem_cons_self _ _
    · rw [if_neg hk] at h
      exact List.mem_cons_of_mem _ (ih key v h)

theorem archivePhase_sub (refs : List CharmRef) :
    ∀ (c : Combined) (acc archs : List (String × FileMap)),
      archivePhase refs c acc = some archs → ∀ p ∈ acc, p ∈ archs := by
  intro c
  induction c with
  | nil =>
    intro acc archs h p hp
    simp only [archivePhase, Option.some.injEq] at h
    subst h
    exact hp
  | cons e rest ih =>
    obtain ⟨⟨i, bName⟩, fm⟩ := e
    intro acc archs h p hp
    simp only [archivePhase] at h
    cases hr : refs.get? i with
    | none => rw [hr] at h; cases h
    | some r =>
      rw [hr] at h
      have h' : (if (acc.any fun p => p.1 == archiveNameFor r bName) = true then none
          else archivePhase refs rest (acc ++ [(archiveNameFor r bName, fm)])) = some archs := h
      by_cases hdup : acc.any (fun p => p.1 == archiveNameFor r bName) = true
      · rw [if_pos hdup] at h'; cases h'
      · rw [if_neg hdup] at h'
        exact ih _ _ h' p (List.mem_append.mpr (Or.inl hp))

theorem archivePhase_spec (refs : List CharmRef) :
    ∀ (c : Combined) (acc archs : List (String × FileMap)),
      archivePhase refs c acc = some archs →
      ((acc.map Prod.fst).Nodup → (archs.map Prod.fst).Nodup) ∧
      ∀ e ∈ c, ∃ r, refs.get? e.1.1 = some r ∧ (archiveNameFor r e.1.2, e.2) ∈ archs := by
  intro c
  induction c with
  | nil =>
    intro acc archs h
    simp only [archivePhase, Option.some.injEq] at h
    subst h
    exact ⟨fun hnd => hnd, fun e he => absurd he (List.not_mem_nil e)⟩
  | cons e rest ih =>
    obtain ⟨⟨i, bName⟩, fm⟩ := e
    intro acc archs h
    simp only [archivePhase] at h
    cases hr : refs.get? i with
    | none => rw [hr] at h; cases h
    | some r =>
      rw [hr] at h
      have h' : (if (acc.any fun p => p.1 == archiveNameFor r bName) = true then none
          else archivePhase refs rest (acc ++ [(archiveNameFor r bName, fm)])) = some archs := h
      by_cases hdup : acc.any (fun p => p.1 == archiveNameFor r bName) = true
      · rw [if_pos hdup] at h'; cases h'
      · rw [if_neg hdup] at h'
        obtain ⟨hnd, hmem⟩ := ih _ _ h' 
        refine ⟨?_, ?_⟩
        · intro hacc
          apply hnd
          rw [List.map_append]
          rw [List.nodup_append]
          refine ⟨hacc, by simp, ?_⟩
          intro a ha hb
          simp only [List.map_cons, List.map_nil, List.mem_singleton] at hb
          subst hb
          have : acc.any (fun p => p.1 == archiveNameFor r bName) = true := by
            rw [List.any_eq_true]
            obtain ⟨p, hp, hp1⟩ := List.mem_map.mp ha
            exact ⟨p, hp, by rw [hp1]; exact beq_iff_eq.mpr rfl⟩
          exact hdup this
        · intro e he
          rcases List.mem_cons.mp he with rfl | htail
          · exact ⟨r, hr, archivePhase_sub refs _ _ _ h' _
              (List.mem_append.mpr (Or.inr (List.mem_singleton.mpr rfl)))⟩
          · exact hmem e htail

theorem copyIndexList_first_wins (dirs : List BaseDir)
    (hnd : (dirs.map (fun d => (d.index, d.baseName))).Nodup)
    (is : List Nat) (m : Nat) (cm c' : Combined)
    (hcm : ∀ B : String, lookupC cm (m, B) = none)
    (hcl : copyIndexList dirs m is.reverse cm = some c') :
    ∀ B n, (lookupC c' (m, B)).bind (fun fm => lookupFM fm n) = firstFile dirs is B n := by
  intro B n
  rw [copyIndexList_lookup dirs m B is.reverse cm c' hcl]
  rw [hcm B]
  rw [lookupFM_optFold]
  have hor : ∀ x : Option String, x.or none = x := fun x => by cases x <;> rfl
  rw [show (none : Option FileMap).bind (fun fm => lookupFM fm n) = none from rfl, hor]
  rw [joinrev_findSome (fun j => selectFms dirs j B) (fun fm => lookupFM fm n) is]
  simp only [firstFile]
  apply findSome_congr
  intro i _
  simp only [memberFile]
  rw [reverse_of_len_le_one _ (selectFms_le_one dirs hnd i B)]

/-- C1: for every charm list in which two or more entries share
(repository, manifestPath) but differ in ref, the merge produces exactly
one combined output tree per base for that shared identity — keyed by the
earliest-declared member index (the minimum, which the member indexes, in
increasing declaration order, all bound from below), with no tree left
under any other member index and no duplicate combined keys — whose content
at every filename is the earliest-declared member's file for that name; and
the archive phase emits exactly one archive for it, named from the
earliest-declared entry's coordinates, containing exactly the merged tree
(all archive names are distinct when the run succeeds). -/
theorem merge_first_listed_wins
    (refs : List CharmRef) (dirs : List BaseDir)
    (hnd : (dirs.map (fun d => (d.index, d.baseName))).Nodup)
    (k : MCharm) (is : List Nat)
    (hG : (k, is) ∈ charmIndexes refs)
    (h2 : 2 ≤ is.length)
    (hdiff : ∃ i ∈ is, ∃ j ∈ is, i ≠ j ∧
      (refs.get? i).map CharmRef.ref ≠ (refs.get? j).map CharmRef.ref)
    (c : Combined) (archs : List (String × FileMap))
    (hrun : releaseMerge refs dirs = some (c, archs)) :
    List.Pairwise (· < ·) is ∧
    (minIdx is ∈ is ∧ ∀ i ∈ is, minIdx is ≤ i) ∧
    (∀ B n, (lookupC c (minIdx is, B)).bind (fun fm => lookupFM fm n) =
      firstFile dirs is B n) ∧
    (∀ i ∈ is, i ≠ minIdx is → ∀ B, lookupC c (i, B) = none) ∧
    (c.map Prod.fst).Nodup ∧
    (∀ B fm, lookupC c (minIdx is, B) = some fm →
      ∃ r, refs.get? (minIdx is) = some r ∧ (archiveNameFor r B, fm) ∈ archs ∧
        (archs.map Prod.fst).Nodup) := by
  obtain ⟨hchar, hne⟩ := group_mem_spec refs k is hG
  -- unfold the run
  simp only [releaseMerge] at hrun
  cases hms : mergeStep refs dirs with
  | none => rw [hms] at hrun; cases hrun
  | some c0 =>
    rw [hms] at hrun
    have hrun' : (match archivePhase refs c0 [] with
        | none => none
        | some archs => some (c0, archs)) = some (c, archs) := hrun
    cases hap : archivePhase refs c0 [] with
    | none => rw [hap] at hrun'; cases hrun'
    | some archs0 =>
      rw [hap] at hrun'
      injection hrun' with hp
      injection hp with hc ha
      subst hc; subst ha
      -- unfold the merge step
      simp only [mergeStep] at hms
      cases hgo : mergeGroupsGo dirs (charmIndexes refs) [] with
      | none => rw [hgo] at hms; cases hms
      | some cg =>
        rw [hgo] at hms
        have hms' : (if (dirs.all fun d => decide (d.index < refs.length)) = true
            then some cg else none) = some c0 := hms
        by_cases hall : (dirs.all fun d => decide (d.index < refs.length)) = true
        · rw [if_pos hall] at hms'
          injection hms' with hcg
          subst hcg
          -- grouping facts
          have hkeys0 : ((charmIndexes refs).map Prod.fst).Nodup :=
            nodup_keys_buildGroups refs [] 0 (by simp)
          have hkey_of : ∀ g' ∈ charmIndexes refs,
              (refs.get? (minIdx g'.2)).map mcharmOf = some g'.1 := by
            intro g' hg'
            obtain ⟨k', is'⟩ := g'
            exact group_key_of_min refs k' is' hg'
          have hdistinct : ∀ g' ∈ charmIndexes refs, g'.1 ≠ k →
              minIdx g'.2 ≠ minIdx is := by
            intro g' hg' hkne heq
            have h1 := hkey_of g' hg'
            rw [heq] at h1
            have h2 := group_key_of_min refs k is hG
            rw [h1] at h2
            injection h2 with h3
            exact hkne h3
          obtain ⟨pre, post, hsplit⟩ := List.append_of_mem hG
          have hkeys1 := hkeys0
          rw [hsplit] at hkeys1
          simp only [List.map_append, List.map_cons] at hkeys1
          rw [List.nodup_append] at hkeys1
          obtain ⟨hnd_pre, hnd_cons, hdisj⟩ := hkeys1
          rw [List.nodup_cons] at hnd_cons
          have hpre_ne : ∀ g' ∈ pre, g'.1 ≠ k := by
            intro g' hg' heq
            exact hdisj (by rw [← heq]; exact List.mem_map.mpr ⟨g', hg', rfl⟩)
              (List.mem_cons_self _ _)
          have hpost_ne : ∀ g' ∈ post, g'.1 ≠ k := by
            intro g' hg' heq
            exact hnd_cons.1 (by rw [← heq]; exact List.mem_map.mpr ⟨g', hg', rfl⟩)
          have hmem_of_pre : ∀ g' ∈ pre, g' ∈ charmIndexes refs := by
            intro g' h
            rw [hsplit]
            exact List.mem_append.mpr (Or.inl h)
          have hmem_of_post : ∀ g' ∈ post, g' ∈ charmIndexes refs := by
            intro g' h
            rw [hsplit]
            exact List.mem_append.mpr (Or.inr (List.mem_cons_of_mem _ h))
          have hminne_pre : ∀ g' ∈ pre, minIdx g'.2 ≠ minIdx is :=
            fun g' hg' => hdistinct g' (hmem_of_pre g' hg') (hpre_ne g' hg')
          have hminne_post : ∀ g' ∈ post, minIdx g'.2 ≠ minIdx is :=
            fun g' hg' => hdistinct g' (hmem_of_post g' hg') (hpost_ne g' hg')
          -- split the group processing
          have hgo' := hgo
          rw [hsplit] at hgo'
          obtain ⟨cm, hgo1, hgo2⟩ := mergeGroupsGo_append dirs pre _ [] cg hgo'
          simp only [mergeGroupsGo] at hgo2
          cases hcl : copyIndexList dirs (minIdx is) is.reverse cm with
          | none => rw [hcl] at hgo2; cases hgo2
          | some c2 =>
            rw [hcl] at hgo2
            have hcm : ∀ B : String, lookupC cm (minIdx is, B) = none := by
              intro B
              have hpres := mergeGroupsGo_ne dirs pre [] cm hgo1 (minIdx is, B)
                (fun g hg => hminne_pre g hg)
              exact hpres.trans rfl
            have hpost_pres : ∀ B : String,
                lookupC cg (minIdx is, B) = lookupC c2 (minIdx is, B) := by
              intro B
              exact mergeGroupsGo_ne dirs post c2 cg hgo2 (minIdx is, B)
                (fun g hg => hminne_post g hg)
            refine ⟨?_, ⟨minIdx_mem is hne, minIdx_le is⟩, ?_, ?_, ?_, ?_⟩
            · rw [hchar]
              exact (matchIdx_sorted k refs 0).1
            · intro B n
              rw [hpost_pres B]
              exact copyIndexList_first_wins dirs hnd is (minIdx is) cm c2 hcm hcl B n
            · intro i hi hine B
              have hmins : ∀ g' ∈ pre ++ (k, is) :: post, minIdx g'.2 ≠ ((i, B) : Nat × String).1 := by
                intro g' hg' heq
                have hg'' : g' ∈ charmIndexes refs := by rw [hsplit]; exact hg'
                by_cases hgk : g'.1 = k
                · have hlk1 := mem_lookupG _ _ _ hkeys0 hG
                  have hg3 : (g'.1, g'.2) ∈ charmIndexes refs := by
                    simpa using hg''
                  rw [hgk] at hg3
                  have hlk2 := mem_lookupG _ _ _ hkeys0 hg3
                  rw [hlk1] at hlk2
                  injection hlk2 with hv
                  apply hine
                  have hmineq : minIdx is = i := by rw [hv]; exact heq
                  exact hmineq.symm
                · have h1 := hkey_of g' hg''
                  rw [heq] at h1
                  have h2 : (refs.get? i).map mcharmOf = some k := by
                    have hmm : i ∈ matchIdx k refs 0 := by rw [← hchar]; exact hi
                    simpa using (mem_matchIdx k refs 0 i hmm).2
                  rw [h1] at h2
                  injection h2 with h3
                  exact hgk h3
              have hpres := mergeGroupsGo_ne dirs _ [] cg hgo' (i, B) hmins
              exact hpres.trans rfl
            · exact mergeGroupsGo_nodup dirs _ [] cg hgo (by simp)
            · intro B fm hfm
              have hcmem : ((minIdx is, B), fm) ∈ cg := lookupC_mem cg _ fm hfm
              obtain ⟨hndarch, hmemarch⟩ := archivePhase_spec refs cg [] archs0 hap
              obtain ⟨r', hr', hmemA⟩ := hmemarch _ hcmem
              exact ⟨r', hr', hmemA, hndarch (by simp)⟩
        · rw [if_neg hall] at hms'
          cases hms' 

/-- C2 counterexample: a file already present at the destination is NOT
left unchanged by a subsequent copy of a same-named file —
`shutil.copytree(..., dirs_exist_ok=True)` overwrites it (the combined
tree's lookup yields the newly copied content, not the existing one). -/
theorem merge_copy_overwrites_existing :
    (lookupC (copyTreeInto [((0, "b"), [("f.whl", "OLD")])] (0, "b") [("f.whl", "NEW")])
        (0, "b")).bind (fun fm => lookupFM fm "f.whl") = some "NEW" ∧
    some "NEW" ≠ some "OLD" := by
  exact ⟨rfl, by decide⟩

/-- C2 (amended): for each merge group the member indexes are processed
from last-declared to first-declared, and each copy into the combined tree
OVERWRITES files already present at the destination path
(`shutil.copytree` with `dirs_exist_ok=True`; the later copy wins a name
collision); this order-plus-overwrite combination makes the
earliest-declared index's files the final content for any name
collision. -/
theorem merge_order_and_overwrite_semantics :
    (∀ (dst src : FileMap) (n : String),
      lookupFM (copyOverwrite dst src) n = (lookupFM src n).or (lookupFM dst n)) ∧
    (∀ (dirs : List BaseDir) (is : List Nat) (c' : Combined) (m : Nat),
      (dirs.map (fun d => (d.index, d.baseName))).Nodup →
      copyIndexList dirs m is.reverse [] = some c' →
      ∀ B n, (lookupC c' (m, B)).bind (fun fm => lookupFM fm n) = firstFile dirs is B n) := by
  constructor
  · intro dst src n
    exact lookupFM_append src dst n
  · intro dirs is c' m hnd hcl B n
    exact copyIndexList_first_wins dirs hnd is m [] c' (fun _ => rfl) hcl B n

theorem merge_order_and_overwrite_semantics_witness :
    copyIndexList
        [⟨1, "ubuntu@22.04_ccchubbase_amd64",
          [("charmcraft-buildd-base-v7", [("f.whl", "B1"), ("g.whl", "G1")])]⟩,
         ⟨0, "ubuntu@22.04_ccchubbase_amd64",
          [("charmcraft-buildd-base-v7", [("f.whl", "A0")])]⟩]
        0 ([0, 1] : List Nat).reverse [] =
      some [((0, "ubuntu@22.04_ccchubbase_amd64"),
        [("f.whl", "A0"), ("f.whl", "B1"), ("g.whl", "G1")])] ∧
    (lookupC [((0, "ubuntu@22.04_ccchubbase_amd64"),
        [("f.whl", "A0"), ("f.whl", "B1"), ("g.whl", "G1")])]
        (0, "ubuntu@22.04_ccchubbase_amd64")).bind (fun fm => lookupFM fm "f.whl") =
      firstFile
        [⟨1, "ubuntu@22.04_ccchubbase_amd64",
          [("charmcraft-buildd-base-v7", [("f.whl", "B1"), ("g.whl", "G1")])]⟩,
         ⟨0, "ubuntu@22.04_ccchubbase_amd64",
          [("charmcraft-buildd-base-v7", [("f.whl", "A0")])]⟩]
        [0, 1] "ubuntu@22.04_ccchubbase_amd64" "f.whl" := by
  refine ⟨by decide, ?_⟩
  exact merge_order_and_overwrite_semantics.2
    [⟨1, "ubuntu@22.04_ccchubbase_amd64",
      [("charmcraft-buildd-base-v7", [("f.whl", "B1"), ("g.whl", "G1")])]⟩,
     ⟨0, "ubuntu@22.04_ccchubbase_amd64",
      [("charmcraft-buildd-base-v7", [("f.whl", "A0")])]⟩]
    [0, 1]
    [((0, "ubuntu@22.04_ccchubbase_amd64"),
      [("f.whl", "A0"), ("f.whl", "B1"), ("g.whl", "G1")])]
    0 (by decide) (by decide) "ubuntu@22.04_ccchubbase_amd64" "f.whl"

theorem merge_first_listed_wins_witness :
    releaseMerge
        [⟨"canonical/a", "r1", "."⟩, ⟨"canonical/a", "r2", "."⟩]
        [⟨1, "ubuntu@22.04_ccchubbase_amd64",
          [("charmcraft-buildd-base-v7", [("f.whl", "B1"), ("g.whl", "G1")])]⟩,
         ⟨0, "ubuntu@22.04_ccchubbase_amd64",
          [("charmcraft-buildd-base-v7", [("f.whl", "A0")])]⟩] =
      some ([((0, "ubuntu@22.04_ccchubbase_amd64"),
          [("f.whl", "A0"), ("f.whl", "B1"), ("g.whl", "G1")])],
        [("canonical_a_ccchub1_._ccchub2_ubuntu@22.04_ccchubbase_amd64",
          [("f.whl", "A0"), ("f.whl", "B1"), ("g.whl", "G1")])]) ∧
    (lookupC [((0, "ubuntu@22.04_ccchubbase_amd64"),
        [("f.whl", "A0"), ("f.whl", "B1"), ("g.whl", "G1")])]
        (minIdx [0, 1], "ubuntu@22.04_ccchubbase_amd64")).bind
      (fun fm => lookupFM fm "f.whl") =
      firstFile
        [⟨1, "ubuntu@22.04_ccchubbase_amd64",
          [("charmcraft-buildd-base-v7", [("f.whl", "B1"), ("g.whl", "G1")])]⟩,
         ⟨0, "ubuntu@22.04_ccchubbase_amd64",
          [("charmcraft-buildd-base-v7", [("f.whl", "A0")])]⟩]
        [0, 1] "ubuntu@22.04_ccchubbase_amd64" "f.whl" := by
  refine ⟨rfl, ?_⟩
  have happ := merge_first_listed_wins
    [⟨"canonical/a", "r1", "."⟩, ⟨"canonical/a", "r2", "."⟩]
    [⟨1, "ubuntu@22.04_ccchubbase_amd64",
      [("charmcraft-buildd-base-v7", [("f.whl", "B1"), ("g.whl", "G1")])]⟩,
     ⟨0, "ubuntu@22.04_ccchubbase_amd64",
      [("charmcraft-buildd-base-v7", [("f.whl", "A0")])]⟩]
    (by decide) ⟨"canonical/a", "."⟩ [0, 1] (by decide) (by decide)
    (by decide)
    [((0, "ubuntu@22.04_ccchubbase_amd64"),
      [("f.whl", "A0"), ("f.whl", "B1"), ("g.whl", "G1")])]
    [("canonical_a_ccchub1_._ccchub2_ubuntu@22.04_ccchubbase_amd64",
      [("f.whl", "A0"), ("f.whl", "B1"), ("g.whl", "G1")])]
    rfl
  exact happ.2.2.1 "ubuntu@22.04_ccchubbase_amd64" "f.whl"
